import Mathlib

/-!
Verification of the companion-keeper data pipeline against its specification.

The TypeScript sources are shallowly embedded: pure functions become Lean
functions over `List Char` / `String`, `Nat` and `Int`; JSON values become an
inductive type; fallible code returns `Option` / `Except`.  JavaScript strings
are modelled at the character level (UTF-16 details and exotic Unicode
whitespace are outside the model; all inputs of interest are ASCII-ranged),
and JavaScript numbers are modelled as integers (the code under study only
uses integral values; `NaN` and fractional values are outside the model).
-/

set_option autoImplicit false

namespace CK

/-! ## JavaScript string primitives -/

/-- Whitespace test matching the JS `\s` / `trim` classes on the ASCII range. -/
def jsWs (c : Char) : Bool :=
  c = ' ' || c = '\t' || c = '\n' || c = '\r' || c = '\x0b' || c = '\x0c'

/-- `String.prototype.trim` on a character list: strip leading and trailing
whitespace. -/
def trimChars (cs : List Char) : List Char :=
  ((cs.dropWhile jsWs).reverse.dropWhile jsWs).reverse

/-- `value.trim()`. -/
def jsTrim (s : String) : String :=
  ⟨trimChars s.data⟩

/-- `value.toLowerCase()` (ASCII case mapping). -/
def jsToLower (s : String) : String :=
  ⟨s.data.map Char.toLower⟩

/-- `value.replace(/\r\n/g, "\n")`: left-to-right non-overlapping replacement
of CRLF pairs by LF. -/
def normCrlfChars : List Char → List Char
  | '\r' :: '\n' :: rest => '\n' :: normCrlfChars rest
  | c :: rest => c :: normCrlfChars rest
  | [] => []

/-- `safeText` from the generation module: CRLF-normalise a string. -/
def safeText (s : String) : String :=
  ⟨normCrlfChars s.data⟩

/-- `safeString(value, defaultValue)`: CRLF-normalise, trim, and fall back to
the default when the result is empty. -/
def safeString (s : String) (dflt : String) : String :=
  let text := jsTrim (safeText s)
  if text = "" then dflt else text

/-- `value.replace(/\s+/g, " ")`: collapse every whitespace run to a single
space.  The boolean argument records whether the previous character was part
of a run already replaced. -/
def collapseWsAux : Bool → List Char → List Char
  | _, [] => []
  | prevWs, c :: rest =>
    if jsWs c then
      if prevWs then collapseWsAux true rest
      else ' ' :: collapseWsAux true rest
    else c :: collapseWsAux false rest

/-- The dedup normaliser inside `compactMemories`:
`text.toLowerCase().replace(/\s+/g, " ").trim()`. -/
def memNormalize (s : String) : String :=
  jsTrim ⟨collapseWsAux false (jsToLower s).data⟩

/-- `toStringArray` from the generation module, specialised to a list that is
already all strings: trim each element and drop empties. -/
def toStringArrayStr (xs : List String) : List String :=
  (xs.map jsTrim).filter (fun x => x ≠ "")

/-- `[...new Set(xs)]`: insertion-ordered exact-string deduplication. -/
def jsSetDedup (xs : List String) : List String :=
  xs.foldl (fun acc k => if k ∈ acc then acc else acc ++ [k]) []

/-! ## Memory candidates and `compactMemories` -/

/-- `MemoryCandidate` (generation module).  Optional source fields are
modelled as strings with `""` for absent. -/
structure MemoryCandidate where
  name : String
  keys : List String
  content : String
  category : String
  priority : Int
  sourceConversation : String
  sourceDate : String
  deriving DecidableEq, Repr

/-- The dedup signature used by `compactMemories`:
`normalize(content) + "|" + keys.map(toLowerCase).join("|")`. -/
def memSignature (content : String) (keys : List String) : String :=
  memNormalize content ++ "|" ++ String.intercalate "|" (keys.map jsToLower)

/-- Signature of an entry already in the output list, recomputed from its
(sanitised) fields exactly as the `find` callback does. -/
def entrySignature (item : MemoryCandidate) : String :=
  memSignature (safeString item.content "") (toStringArrayStr item.keys)

/-- The in-place mutation applied to the first matching entry when a
duplicate signature is found: exact-string key union, priority max, longer
content. -/
def mergeCandidate (existing : MemoryCandidate) (keys : List String)
    (content : String) (priority : Int) : MemoryCandidate :=
  { existing with
    keys := jsSetDedup (toStringArrayStr existing.keys ++ keys)
    priority := if priority > existing.priority then priority else existing.priority
    content :=
      if content.length > (safeString existing.content "").length then content
      else existing.content }

/-- Replace the first entry of `out` whose signature matches `signature` by
its merged form. -/
def mergeFirst (signature : String) (keys : List String) (content : String)
    (priority : Int) : List MemoryCandidate → List MemoryCandidate
  | [] => []
  | item :: rest =>
    if entrySignature item = signature then
      mergeCandidate item keys content priority :: rest
    else item :: mergeFirst signature keys content priority rest

/-- The record pushed for a candidate with no duplicate already in `out`
(`idx` is `out.length + 1`, used for the fallback name). -/
def freshEntry (candidate : MemoryCandidate) (idx : Nat) : MemoryCandidate :=
  { name := safeString candidate.name ("Memory " ++ toString idx)
    keys := toStringArrayStr candidate.keys
    content := safeString candidate.content ""
    category := safeString candidate.category "shared_memory"
    priority := candidate.priority
    sourceConversation := safeString candidate.sourceConversation ""
    sourceDate := safeString candidate.sourceDate "" }

/-- One iteration of the `compactMemories` loop (the source's local
`content`, `keys` and `signature` bindings are inlined). -/
def compactStep (out : List MemoryCandidate) (candidate : MemoryCandidate) :
    List MemoryCandidate :=
  if safeString candidate.content "" = "" ∨ toStringArrayStr candidate.keys = [] then out
  else if out.any (fun item => entrySignature item =
      memSignature (safeString candidate.content "") (toStringArrayStr candidate.keys)) then
    mergeFirst (memSignature (safeString candidate.content "") (toStringArrayStr candidate.keys))
      (toStringArrayStr candidate.keys) (safeString candidate.content "")
      candidate.priority out
  else
    out ++ [freshEntry candidate (out.length + 1)]

/-- `compactMemories` (generation module, part_009 lines 2168-2215). -/
def compactMemories (candidates : List MemoryCandidate) : List MemoryCandidate :=
  candidates.foldl compactStep []

/-- A candidate all of whose string fields are fixed points of the sanitation
applied when `compactMemories` re-reads an entry (trimmed, CRLF-free, and
non-empty where the code requires it). -/
def SelfSane (e : MemoryCandidate) : Prop :=
  safeString e.name "" = e.name ∧ e.name ≠ "" ∧
  toStringArrayStr e.keys = e.keys ∧ e.keys ≠ [] ∧
  safeString e.content "" = e.content ∧ e.content ≠ "" ∧
  safeString e.category "" = e.category ∧ e.category ≠ "" ∧
  safeString e.sourceConversation "" = e.sourceConversation ∧
  safeString e.sourceDate "" = e.sourceDate

instance (e : MemoryCandidate) : Decidable (SelfSane e) := by
  unfold SelfSane
  infer_instance

/-- Helper for building concrete memory candidates in examples. -/
def mkCandidate (name : String) (keys : List String) (content : String)
    (priority : Int) (sourceConversation : String) : MemoryCandidate :=
  { name := name, keys := keys, content := content, category := "shared_memory"
    priority := priority, sourceConversation := sourceConversation, sourceDate := "" }

/-- Candidates exhibiting a signature collision that appears only after a
merge mutated the first entry's key list. -/
def memExA : MemoryCandidate := mkCandidate "a" ["p"] "x" 1 ""

def memExB : MemoryCandidate := mkCandidate "b" ["p", "p"] "x" 1 ""

def memExC : MemoryCandidate := mkCandidate "c" ["P"] "x" 1 ""

/-- Candidate whose content collapses differently under a second CRLF
normalisation pass. -/
def memExD : MemoryCandidate := mkCandidate "d" ["k"] "a\r\r\nb" 1 ""

/-- Duplicate-signature pair whose keys differ only by case and whose second
member carries a source conversation the first lacks. -/
def memExE : MemoryCandidate := mkCandidate "e" ["Foo"] "x" 1 ""

def memExF : MemoryCandidate := mkCandidate "f" ["foo"] "x" 2 "conv1"

/-- Candidate rejected by the `compactMemories` guard (no usable keys). -/
def memExBad : MemoryCandidate := mkCandidate "bad" [] "x" 0 ""

/-! ## LLM HTTP retry (`RETRY_MARKERS`, `isRetryableError`, `fetchJsonWithRetry`) -/

/-- `RETRY_MARKERS` (part_009 lines 4190-4205). -/
def RETRY_MARKERS : List String :=
  ["429", "500", "502", "503", "504", "too many requests", "rate limit",
   "overloaded", "temporarily unavailable", "service unavailable", "timeout",
   "timed out", "connection reset", "try again later"]

/-- `haystack.includes(needle)` on character lists. -/
def includesAux (needle : List Char) : List Char → Bool
  | [] => needle.isEmpty
  | c :: rest => needle.isPrefixOf (c :: rest) || includesAux needle rest

/-- `haystack.includes(needle)` for strings. -/
def jsIncludes (haystack needle : String) : Bool :=
  includesAux needle.data haystack.data

/-- An error as observed by the retry loop: its `name` and `message`. -/
structure JsError where
  name : String
  message : String
  deriving DecidableEq, Repr

/-- `isRetryableError`: the lowercased error text contains one of the
markers. -/
def isRetryableError (message : String) : Bool :=
  RETRY_MARKERS.any (fun marker => jsIncludes (jsToLower message) marker)

/-- Recursion core of `fetchJsonWithRetry`.  `fetch k` is the outcome of the
`k`-th attempt (1-based), `sigAborted k` whether the upstream signal was
observed aborted in the `k`-th catch block, and `u k` the `Math.random()`
sample drawn before the `k`-th backoff.  Returns the final outcome and the
backoff delays (in seconds) actually slept.  `fuel` only bounds the
structural recursion; it is chosen so the `attempt >= maxAttempts` check
always fires first. -/
def fetchJsonWithRetryGo {V : Type} (fetch : Nat → Except JsError V)
    (sigAborted : Nat → Bool) (u : Nat → ℚ) (maxAttempts : Nat) :
    Nat → Nat → Except JsError V × List ℚ
  | 0, attempt => (fetch attempt, [])
  | fuel + 1, attempt =>
    match fetch attempt with
    | Except.ok v => (Except.ok v, [])
    | Except.error e =>
      if sigAborted attempt || e.name == "AbortError" then (Except.error e, [])
      else if e.name == "TimeoutError" then (Except.error e, [])
      else if maxAttempts ≤ attempt || !isRetryableError e.message then
        (Except.error e, [])
      else
        let backoff : ℚ := min 45 ((2 : ℚ) ^ (attempt - 1) + u attempt)
        let rest := fetchJsonWithRetryGo fetch sigAborted u maxAttempts fuel (attempt + 1)
        (rest.1, backoff :: rest.2)

/-- `fetchJsonWithRetry` (part_009 lines 4343-4377), starting at attempt 1. -/
def fetchJsonWithRetry {V : Type} (fetch : Nat → Except JsError V)
    (sigAborted : Nat → Bool) (u : Nat → ℚ) (maxAttempts : Nat) :
    Except JsError V × List ℚ :=
  fetchJsonWithRetryGo fetch sigAborted u maxAttempts (maxAttempts + 1) 1

/-- The condition under which the source retries after attempt `k` failed
with error `e` (`sigA` is the aborted flag observed in that catch block). -/
def codeRetries (e : JsError) (sigA : Bool) (attempt maxAttempts : Nat) : Prop :=
  sigA = false ∧ e.name ≠ "AbortError" ∧ e.name ≠ "TimeoutError" ∧
    attempt < maxAttempts ∧ isRetryableError e.message = true

instance (e : JsError) (sigA : Bool) (attempt maxAttempts : Nat) :
    Decidable (codeRetries e sigA attempt maxAttempts) := by
  unfold codeRetries
  infer_instance

/-- Behavioural specification of a retry-loop run that begins at `attempt`:
the number of backoffs fits the remaining budget, each backoff equals the
decorrelated-jitter formula, every retried attempt failed with an error the
source classifies retryable, and the final outcome is the outcome of the
last attempt (which, when it failed, was not classified retryable). -/
def RetrySpec {V : Type} (fetch : Nat → Except JsError V) (sig : Nat → Bool)
    (u : Nat → ℚ) (maxAttempts attempt : Nat)
    (out : Except JsError V × List ℚ) : Prop :=
  out.2.length ≤ maxAttempts - attempt ∧
    (∀ i (hi : i < out.2.length),
      out.2.get ⟨i, hi⟩ = min 45 ((2 : ℚ) ^ (attempt + i - 1) + u (attempt + i))) ∧
    (∀ k, attempt ≤ k → k < attempt + out.2.length →
      ∃ e, fetch k = Except.error e ∧ codeRetries e (sig k) k maxAttempts) ∧
    (∀ e, out.1 = Except.error e →
      fetch (attempt + out.2.length) = Except.error e ∧
        ¬ codeRetries e (sig (attempt + out.2.length)) (attempt + out.2.length)
          maxAttempts) ∧
    (∀ v, out.1 = Except.ok v → fetch (attempt + out.2.length) = Except.ok v)

/-- Modelled from the spec claim's words (for the counterexample only): the
error classes the claim says are retryable: 429, 5xx codes, rate limit,
overloaded, timeout, connection reset. -/
def claimRetryClassMatches (text : String) : Bool :=
  jsIncludes text "429" ||
    (List.range 100).any (fun k => jsIncludes text (toString (500 + k))) ||
    ["rate limit", "overloaded", "timeout", "connection reset"].any
      (fun marker => jsIncludes text marker)

/-- Concrete retry-loop inputs for the counterexample: every attempt fails
with an error whose text matches none of the claim's classes but does match
the source's `"try again later"` marker. -/
def tryLaterError : JsError :=
  { name := "Error", message := "Please try again later" }

def tryLaterFetch : Nat → Except JsError Unit := fun _ => Except.error tryLaterError

def noAbort : Nat → Bool := fun _ => false

def zeroJitter : Nat → ℚ := fun _ => 0

/-! ## Conversation packets (`payloads.ts` and `buildChunksFromFiles`) -/

/-- A cleaned message as read back from an extracted conversation file. -/
structure RoleMsg where
  role : String
  content : String
  deriving DecidableEq, Repr

/-- `normalizeNewlines` (pipeline `utils.ts`): CRLF→LF, CR→LF, strip NUL. -/
def normalizeNewlines (s : String) : String :=
  ⟨((normCrlfChars s.data).map (fun c => if c = '\r' then '\n' else c)).filter
    (fun c => c ≠ '\x00')⟩

/-- `newlineSafeText` (payloads.ts), on an actual string. -/
def newlineSafeText (s : String) : String :=
  normalizeNewlines s

/-- `ConversationPacket` (pipeline types); `sourceFile` is filled by
`buildConversationPacketFromFile`. -/
structure ConversationPacket where
  conversationId : String
  sourceFile : String
  transcript : String
  messagesUsed : Nat
  charCount : Nat
  deriving DecidableEq, Repr

/-- The message loop of `buildConversationPacket`: returns the collected
lines, the character count and the number of messages used. -/
def packetGo (maxMessages maxChars : Nat) :
    List RoleMsg → List String → Nat → Nat → List String × Nat × Nat
  | [], lines, charCount, used => (lines, charCount, used)
  | m :: rest, lines, charCount, used =>
    if maxMessages > 0 ∧ used ≥ maxMessages then (lines, charCount, used)
    else
      if (newlineSafeText m.content).length = 0 then
        packetGo maxMessages maxChars rest lines charCount used
      else
        if maxChars > 0 ∧
            charCount + ("[" ++ m.role ++ "] " ++ newlineSafeText m.content).length
              > maxChars then
          (lines, charCount, used)
        else
          packetGo maxMessages maxChars rest
            (lines ++ ["[" ++ m.role ++ "] " ++ newlineSafeText m.content])
            (charCount + ("[" ++ m.role ++ "] " ++ newlineSafeText m.content).length)
            (used + 1)

/-- `buildConversationPacket` (payloads.ts lines 30-68). -/
def buildConversationPacket (conversationId : String) (messages : List RoleMsg)
    (maxMessages maxChars : Nat) : ConversationPacket :=
  { conversationId := conversationId
    sourceFile := ""
    transcript := String.intercalate "\n" (packetGo maxMessages maxChars messages [] 0 0).1
    messagesUsed := (packetGo maxMessages maxChars messages [] 0 0).2.2
    charCount := (packetGo maxMessages maxChars messages [] 0 0).2.1 }

/-- A scored conversation file together with the cleaned messages that
`readExtractedConversationFile` yields for it (file IO abstracted). -/
structure ScoredFile where
  fileName : String
  filePath : String
  messages : List RoleMsg
  deriving DecidableEq, Repr

/-- `ConversationChunk` (generation module). -/
structure ConversationChunk where
  conversationId : String
  sourceFile : String
  sourcePath : String
  transcript : String
  messagesUsed : Nat
  charCount : Nat
  tokenEstimate : Nat
  deriving DecidableEq, Repr

/-- `estimateTokens`: `max(1, ceil(len / 4))`, zero for the empty string. -/
def estimateTokens (s : String) : Nat :=
  if s.length = 0 then 0 else max 1 ((s.length + 3) / 4)

def MAX_SAFE_INTEGER : Nat := 9007199254740991

/-- `text.slice(0, n)` for `n ≥ 0`. -/
def jsSliceTo (s : String) (n : Nat) : String :=
  ⟨s.data.take n⟩

/-- The cap on a conversation's characters derived from the total-chars
budget (`Number.MAX_SAFE_INTEGER` when no finite positive total is set). -/
def perConversationCapFromTotal (maxTotalChars fileCount : Nat) : Nat :=
  if maxTotalChars > 0 then max 1 (max 1 maxTotalChars / max 1 fileCount)
  else MAX_SAFE_INTEGER

/-- The per-conversation char budget computed by `buildChunksFromFiles`. -/
def perConversationCharBudget (maxCharsPerConversation maxTotalChars
    fileCount : Nat) : Nat :=
  if maxCharsPerConversation > 0 then
    max 1 (min maxCharsPerConversation (perConversationCapFromTotal maxTotalChars fileCount))
  else perConversationCapFromTotal maxTotalChars fileCount

/-- The body of the `buildChunksFromFiles` loop for one file (conversation id
derivation from the path is abstracted to the path itself). -/
def chunkOfFile (maxMessagesPerConversation budget : Nat) (file : ScoredFile) :
    Option ConversationChunk :=
  let packet := buildConversationPacket file.filePath file.messages
    maxMessagesPerConversation budget
  if packet.messagesUsed ≤ 0 ∨ jsTrim packet.transcript = "" then none
  else
    let safeTranscript := jsSliceTo packet.transcript budget
    let safeCharCount := min packet.charCount (min safeTranscript.length budget)
    if safeCharCount ≤ 0 ∨ jsTrim safeTranscript = "" then none
    else some
      { conversationId := packet.conversationId
        sourceFile := file.fileName
        sourcePath := file.filePath
        transcript := safeTranscript
        messagesUsed := packet.messagesUsed
        charCount := safeCharCount
        tokenEstimate := estimateTokens safeTranscript }

/-- `buildChunksFromFiles` (part_009 lines 2332-2385). -/
def buildChunksFromFiles (files : List ScoredFile)
    (maxMessagesPerConversation maxCharsPerConversation maxTotalChars : Nat) :
    List ConversationChunk :=
  files.foldl (fun out file =>
    match chunkOfFile maxMessagesPerConversation
        (perConversationCharBudget maxCharsPerConversation maxTotalChars files.length)
        file with
    | none => out
    | some chunk => out ++ [chunk]) []

/-- Concrete input for the packet-budget witness. -/
def scoredFileEx : ScoredFile :=
  { fileName := "conv1.jsonl", filePath := "conv1.jsonl"
    messages := [{ role := "user", content := "hi" }] }

/-! ## JavaScript values (results of `JSON.parse`) -/

mutual
inductive JsValue where
  | null : JsValue
  | bool (b : Bool) : JsValue
  | num (n : Int) : JsValue
  | str (s : String) : JsValue
  | arr (items : JsItems) : JsValue
  | obj (fields : JsFields) : JsValue
  deriving DecidableEq
inductive JsItems where
  | nil : JsItems
  | cons (head : JsValue) (tail : JsItems) : JsItems
  deriving DecidableEq
inductive JsFields where
  | nil : JsFields
  | cons (key : String) (value : JsValue) (tail : JsFields) : JsFields
  deriving DecidableEq
end

def JsItems.toList : JsItems → List JsValue
  | JsItems.nil => []
  | JsItems.cons head tail => head :: tail.toList

def JsItems.ofList : List JsValue → JsItems
  | [] => JsItems.nil
  | head :: tail => JsItems.cons head (JsItems.ofList tail)

def JsFields.toList : JsFields → List (String × JsValue)
  | JsFields.nil => []
  | JsFields.cons key value tail => (key, value) :: tail.toList

def JsFields.ofList : List (String × JsValue) → JsFields
  | [] => JsFields.nil
  | (key, value) :: tail => JsFields.cons key value (JsFields.ofList tail)

/-- Object literal helper. -/
def jsObj (fields : List (String × JsValue)) : JsValue :=
  JsValue.obj (JsFields.ofList fields)

/-- Array literal helper. -/
def jsArr (items : List JsValue) : JsValue :=
  JsValue.arr (JsItems.ofList items)

/-- `asRecord` (generation module): non-null, non-array objects only.  JS
object keys are unique, so the association list is read first-match. -/
def asRecord : JsValue → Option (List (String × JsValue))
  | JsValue.obj fields => some fields.toList
  | _ => none

def asRecordOpt (v : Option JsValue) : Option (List (String × JsValue)) :=
  v.bind asRecord

/-- Property access, `none` for a missing key (JS `undefined`). -/
def jsGet (fields : List (String × JsValue)) (key : String) : Option JsValue :=
  (fields.find? (fun kv => kv.1 == key)).map (fun kv => kv.2)

/-- `safeString` applied to an `unknown` value (non-strings behave as `""`,
hence yield the default). -/
def safeStringJs (v : Option JsValue) (dflt : String) : String :=
  match v with
  | some (JsValue.str s) => safeString s dflt
  | _ => dflt

/-- `toStringArray` applied to an `unknown` value. -/
def toStringArrayJs (v : Option JsValue) : List String :=
  match v with
  | some (JsValue.arr items) =>
    ((items.toList.filterMap (fun row =>
      match row with
      | JsValue.str s => some s
      | _ => none)).map jsTrim).filter (fun r => r ≠ "")
  | _ => []

/-- The `??` operator: take the right operand on `null`/`undefined`. -/
def jsCoalesce (a b : Option JsValue) : Option JsValue :=
  match a with
  | some JsValue.null => b
  | none => b
  | some v => some v

/-- `Number(x)` restricted to the values the checkpoint schema admits
(numbers and booleans; other coercions produce `NaN` or parse strings in JS
and are modelled as 0, which the claims never exercise). -/
def jsNumberOrZero (v : Option JsValue) : Int :=
  match v with
  | some (JsValue.num n) => n
  | some (JsValue.bool b) => if b then 1 else 0
  | _ => 0

/-! ## Resume checkpoint (`normalizeResumeCheckpoint` and resume skipping) -/

/-- Character class of the keyword regex `[a-z0-9]`. -/
def isTokenChar (c : Char) : Bool :=
  (decide ('a' ≤ c) && decide (c ≤ 'z')) || (decide ('0' ≤ c) && decide (c ≤ '9'))

/-- Maximal `[a-z0-9]` runs of a character list (the accumulator holds the
current run reversed). -/
def tokenRunsAux (cur : List Char) : List Char → List (List Char)
  | [] => if cur = [] then [] else [cur.reverse]
  | c :: rest =>
    if isTokenChar c then tokenRunsAux (c :: cur) rest
    else if cur = [] then tokenRunsAux [] rest
    else cur.reverse :: tokenRunsAux [] rest

def keywordStopwords : List String :=
  ["that", "with", "from", "this", "have", "will", "would", "about"]

/-- The dedupe-and-cap loop of `splitKeywords` (stop after five picks). -/
def pickTokensAux (seen out : List String) : List String → List String
  | [] => out
  | t :: rest =>
    if t ∈ seen then pickTokensAux seen out rest
    else if (out ++ [t]).length ≥ 5 then out ++ [t]
    else pickTokensAux (seen ++ [t]) (out ++ [t]) rest

/-- `splitKeywords` (part_009 lines 2145-2166): up to five distinct
lowercase alphanumeric tokens of length at least three, stopwords removed,
falling back to `["memory"]`. -/
def splitKeywords (text : String) : List String :=
  let runs := (tokenRunsAux [] (jsToLower text).data).filter (fun r => r.length ≥ 3)
  let tokens := (runs.map (fun r => (⟨r⟩ : String))).filter
    (fun t => t ∉ keywordStopwords)
  let out := pickTokensAux [] [] tokens
  if out = [] then ["memory"] else out

/-- `sanitizeMemoryCandidateRows` (part_009 lines 2486-2512). -/
def sanitizeMemoryCandidateRows (rows : JsValue) : List MemoryCandidate :=
  match rows with
  | JsValue.arr items =>
    items.toList.filterMap (fun raw =>
      match asRecord raw with
      | none => none
      | some row =>
        if safeStringJs (jsGet row "content") "" = "" then none
        else some
          { name := safeStringJs (jsGet row "name") "Memory"
            keys :=
              if (toStringArrayJs (jsGet row "keys")).length > 0 then
                toStringArrayJs (jsGet row "keys")
              else splitKeywords (safeStringJs (jsGet row "content") "")
            content := safeStringJs (jsGet row "content") ""
            category := safeStringJs (jsGet row "category") "shared_memory"
            priority := jsNumberOrZero (jsCoalesce (jsGet row "priority")
              (some (JsValue.num 0)))
            sourceConversation := safeStringJs
              (jsCoalesce (jsGet row "sourceConversation")
                (jsGet row "source_conversation")) ""
            sourceDate := safeStringJs
              (jsCoalesce (jsGet row "sourceDate") (jsGet row "source_date")) "" })
  | _ => []

/-- `GenerationResumeCheckpoint` (already narrowed to its schema). -/
structure GenerationResumeCheckpoint where
  version : Nat
  signature : String
  createdAtUtc : String
  updatedAtUtc : String
  personaObservationsByConversation : List (String × List (String × JsValue))
  memoryCandidatesBySourceFile : List (String × List MemoryCandidate)
  processedMemoryFiles : List String
  deriving DecidableEq

/-- The `fallback` record of `normalizeResumeCheckpoint` (`now` stands for
`nowIso()`). -/
def emptyResumeCheckpoint (signature now : String) : GenerationResumeCheckpoint :=
  { version := 1, signature := signature, createdAtUtc := now, updatedAtUtc := now
    personaObservationsByConversation := []
    memoryCandidatesBySourceFile := []
    processedMemoryFiles := [] }

/-- The `hasLegacyData` test inside `normalizeResumeCheckpoint`. -/
def hasLegacyDataB (root : List (String × JsValue)) : Bool :=
  (match asRecordOpt (jsGet root "personaObservationsByConversation") with
    | some l => l.length > 0
    | none => false) ||
  (match asRecordOpt (jsGet root "memoryCandidatesBySourceFile") with
    | some l => l.length > 0
    | none => false) ||
  (toStringArrayJs (jsGet root "processedMemoryFiles")).length > 0

/-- `normalizeResumeCheckpoint` (part_009 lines 2514-2581). -/
def normalizeResumeCheckpoint (value : JsValue) (signature now : String) :
    GenerationResumeCheckpoint :=
  match asRecord value with
  | none => emptyResumeCheckpoint signature now
  | some root =>
    if safeStringJs (jsGet root "signature") "" ≠ signature ∧
        hasLegacyDataB root = false then
      emptyResumeCheckpoint signature now
    else
      { version := 1
        signature := signature
        createdAtUtc := safeStringJs (jsGet root "createdAtUtc") now
        updatedAtUtc := safeStringJs (jsGet root "updatedAtUtc") now
        personaObservationsByConversation :=
          ((asRecordOpt (jsGet root "personaObservationsByConversation")).getD []).filterMap
            (fun kv => (asRecord kv.2).map (fun parsed => (kv.1, parsed)))
        memoryCandidatesBySourceFile :=
          ((asRecordOpt (jsGet root "memoryCandidatesBySourceFile")).getD []).filterMap
            (fun kv =>
              if (sanitizeMemoryCandidateRows kv.2).length > 0 then
                some (kv.1, sanitizeMemoryCandidateRows kv.2)
              else none)
        processedMemoryFiles := toStringArrayJs (jsGet root "processedMemoryFiles") }

/-- The stored signature read back from an on-disk checkpoint value. -/
def checkpointStoredSignature (value : JsValue) : String :=
  match asRecord value with
  | none => ""
  | some root => safeStringJs (jsGet root "signature") ""

/-- Whether an on-disk checkpoint value carries legacy persona/memory data. -/
def checkpointHasLegacyData (value : JsValue) : Bool :=
  match asRecord value with
  | none => false
  | some root => hasLegacyDataB root

/-! ## Resume skipping inside `runGenerationLlm` (part_009 lines 3008-3045) -/

/-- A typed candidate serialised back to the JS value the checkpoint holds. -/
def candidateToJs (c : MemoryCandidate) : JsValue :=
  jsObj [("name", JsValue.str c.name), ("keys", jsArr (c.keys.map JsValue.str)),
    ("content", JsValue.str c.content), ("category", JsValue.str c.category),
    ("priority", JsValue.num c.priority),
    ("sourceConversation", JsValue.str c.sourceConversation),
    ("sourceDate", JsValue.str c.sourceDate)]

/-- `sanitizeMemoryCandidateRows` re-applied to rows already loaded from the
checkpoint (line 3018). -/
def resanitizeRows (rows : List MemoryCandidate) : List MemoryCandidate :=
  sanitizeMemoryCandidateRows (jsArr (rows.map candidateToJs))

/-- The `memoryCandidatesBySourceFile` map rebuilt at lines 3016-3022:
only source files whose rows re-sanitise to a non-empty list are kept. -/
def memoryCandidatesMapOf (cp : GenerationResumeCheckpoint) :
    List (String × List MemoryCandidate) :=
  cp.memoryCandidatesBySourceFile.filterMap (fun kv =>
    if (resanitizeRows kv.2).length > 0 then some (kv.1, resanitizeRows kv.2)
    else none)

/-- The persona observation map rebuilt at lines 3008-3014 (the `asRecord`
narrowing is the identity on the typed checkpoint). -/
def personaObservationMapOf (cp : GenerationResumeCheckpoint) :
    List (String × List (String × JsValue)) :=
  cp.personaObservationsByConversation

def validMemorySourceFiles (chunks : List ConversationChunk) : List String :=
  chunks.map (fun chunk => chunk.sourceFile)

/-- The `processedMemoryFileSet` built at lines 3024-3035: checkpointed
processed files and candidate-map keys, both restricted to the selected
chunks' source files, as an insertion-ordered set. -/
def processedMemoryFileSetOf (cp : GenerationResumeCheckpoint)
    (chunks : List ConversationChunk) : List String :=
  jsSetDedup
    ((cp.processedMemoryFiles.filter (fun f => f ∈ validMemorySourceFiles chunks)) ++
      (((memoryCandidatesMapOf cp).map Prod.fst).filter
        (fun f => f ∈ validMemorySourceFiles chunks)))

/-- `memoryChunksPending` (line 3040): the chunks whose source file is not in
the processed set are the ones for which a memory-extraction LLM call runs. -/
def memoryChunksPending (cp : GenerationResumeCheckpoint)
    (chunks : List ConversationChunk) : List ConversationChunk :=
  chunks.filter (fun chunk => chunk.sourceFile ∉ processedMemoryFileSetOf cp chunks)

/-- `personaChunksPending` (lines 3037-3039). -/
def personaChunksPending (cp : GenerationResumeCheckpoint)
    (chunksForPersona : List ConversationChunk) (appendMemories : Bool) :
    List ConversationChunk :=
  if appendMemories then []
  else chunksForPersona.filter (fun chunk =>
    ¬ (personaObservationMapOf cp).any (fun kv => kv.1 == chunk.conversationId))

/-- Concrete values for the checkpoint counterexamples. -/
def legacyCheckpointJson : JsValue :=
  jsObj [("signature", JsValue.str "old"),
    ("personaObservationsByConversation", jsObj [("c1", jsObj [])])]

def goodCandidateRow : MemoryCandidate := mkCandidate "m" ["k"] "remember" 1 ""

def cpWithCandidatesOnly : GenerationResumeCheckpoint :=
  { version := 1, signature := "s", createdAtUtc := "t", updatedAtUtc := "t"
    personaObservationsByConversation := []
    memoryCandidatesBySourceFile := [("f.jsonl", [goodCandidateRow])]
    processedMemoryFiles := [] }

def chunkForFileF : ConversationChunk :=
  { conversationId := "c-f", sourceFile := "f.jsonl", sourcePath := "f.jsonl"
    transcript := "[user] hi", messagesUsed := 1, charCount := 9
    tokenEstimate := 3 }

/-! ## Prompt templates (`fillPromptTemplate`) -/

/-- `text.replaceAll(pat, rep)`: leftmost non-overlapping replacement, the
replacement text never rescanned.  `fuel` bounds the structural recursion;
every step consumes at least one character, so `fuel = s.length` is enough. -/
def replaceAllFuel (pat rep : List Char) : Nat → List Char → List Char
  | _, [] => []
  | 0, s => s
  | fuel + 1, c :: rest =>
    if pat ≠ [] ∧ pat.isPrefixOf (c :: rest) = true then
      rep ++ replaceAllFuel pat rep fuel ((c :: rest).drop pat.length)
    else c :: replaceAllFuel pat rep fuel rest

/-- `text.replaceAll(pat, rep)` for strings. -/
def jsReplaceAll (s pat rep : String) : String :=
  ⟨replaceAllFuel pat.data rep.data s.data.length s.data⟩

/-- `fillPromptTemplate` (part_009 lines 4848-4855): the `Object.entries`
iteration is the given association list, values already coerced by
`String(...)`. -/
def fillPromptTemplate (template : String) (values : List (String × String)) :
    String :=
  values.foldl (fun text kv => jsReplaceAll text ("\x7b" ++ kv.1 ++ "\x7d") kv.2) template

/-- The documented single-brace placeholder names (spec section 4.6.4). -/
def documentedPlaceholderKeys : List String :=
  ["companion_name", "conversation_id", "transcript", "observation_packets",
   "candidate_memories", "max_memories"]

/-- Number of (possibly overlapping) occurrences of `t` in `s`. -/
def countOcc (t : List Char) : List Char → Nat
  | [] => 0
  | c :: rest => (if t.isPrefixOf (c :: rest) = true then 1 else 0) + countOcc t rest

def countOccStr (t s : String) : Nat :=
  countOcc t.data s.data

/-- No occurrence of the replacement pattern `pat` can overlap an occurrence
of the literal token `t`, and `t` cannot overlap itself: the combinatorial
condition under which `replaceAll` preserves every occurrence of `t`. -/
def NoOverlap (pat t : List Char) : Prop :=
  (∀ i ∈ List.range pat.length,
    t.isPrefixOf (pat.drop i) = false ∧ (pat.drop i).isPrefixOf t = false) ∧
  (∀ j ∈ List.range t.length, 0 < j →
    pat.isPrefixOf (t.drop j) = false ∧ (t.drop j).isPrefixOf pat = false) ∧
  (∀ j ∈ List.range t.length, 0 < j → (t.drop j).isPrefixOf t = false)

instance (pat t : List Char) : Decidable (NoOverlap pat t) := by
  unfold NoOverlap
  infer_instance

/-! ## JSON values for the array streamer (claim C2)

A self-contained JSON AST: strings are character lists (canonically escaped
with `\"` and `\\`; other escape forms and `\u` sequences are outside the
model), numbers are integers (fractions and exponents are outside the
model). -/

mutual
inductive JVal where
  | jnull : JVal
  | jbool (b : Bool) : JVal
  | jnum (n : Int) : JVal
  | jstr (s : List Char) : JVal
  | jarr (items : JItems) : JVal
  | jobj (fields : JFields) : JVal
  deriving DecidableEq
inductive JItems where
  | inil : JItems
  | icons (head : JVal) (tail : JItems) : JItems
  deriving DecidableEq
inductive JFields where
  | fnil : JFields
  | fcons (key : List Char) (value : JVal) (tail : JFields) : JFields
  deriving DecidableEq
end

def JItems.list : JItems → List JVal
  | JItems.inil => []
  | JItems.icons head tail => head :: tail.list

/-- Whether a JSON value is an object (the only shape the streamer admits at
the top level of the array). -/
def JVal.isObj : JVal → Bool
  | JVal.jobj _ => true
  | _ => false

/-- Canonical JSON string escaping: quote and backslash. -/
def escStr : List Char → List Char
  | [] => []
  | c :: rest =>
    if c = '"' ∨ c = '\\' then '\\' :: c :: escStr rest else c :: escStr rest

def digitChar (n : Nat) : Char :=
  Char.ofNat (48 + n)

/-- Decimal digits of a natural number (fuelled; `fuel = n + 1` suffices). -/
def natDigitsGo : Nat → Nat → List Char
  | 0, _ => []
  | fuel + 1, n =>
    if n < 10 then [digitChar n]
    else natDigitsGo fuel (n / 10) ++ [digitChar (n % 10)]

def natDigits (n : Nat) : List Char :=
  natDigitsGo (n + 1) n

def renderInt (n : Int) : List Char :=
  if n < 0 then '-' :: natDigits n.natAbs else natDigits n.natAbs

/-- Canonical rendering of a JSON string literal. -/
def renderStr (s : List Char) : List Char :=
  '"' :: escStr s ++ ['"']

mutual
def renderVal : JVal → List Char
  | JVal.jnull => ['n', 'u', 'l', 'l']
  | JVal.jbool true => ['t', 'r', 'u', 'e']
  | JVal.jbool false => ['f', 'a', 'l', 's', 'e']
  | JVal.jnum n => renderInt n
  | JVal.jstr s => renderStr s
  | JVal.jarr items => '[' :: renderItems items ++ [']']
  | JVal.jobj fields => '{' :: renderFields fields ++ ['}']
def renderItems : JItems → List Char
  | JItems.inil => []
  | JItems.icons v JItems.inil => renderVal v
  | JItems.icons v (JItems.icons w rest) =>
    renderVal v ++ ',' :: renderItems (JItems.icons w rest)
def renderFields : JFields → List Char
  | JFields.fnil => []
  | JFields.fcons k v JFields.fnil => renderStr k ++ ':' :: renderVal v
  | JFields.fcons k v (JFields.fcons k2 v2 rest) =>
    renderStr k ++ ':' :: renderVal v ++ ',' :: renderFields (JFields.fcons k2 v2 rest)
end

mutual
/-- Size measure used as parser fuel. -/
def sizeVal : JVal → Nat
  | JVal.jnull => 1
  | JVal.jbool _ => 1
  | JVal.jnum _ => 1
  | JVal.jstr _ => 1
  | JVal.jarr items => 1 + sizeItems items
  | JVal.jobj fields => 1 + sizeFields fields
def sizeItems : JItems → Nat
  | JItems.inil => 0
  | JItems.icons v rest => 1 + sizeVal v + sizeItems rest
def sizeFields : JFields → Nat
  | JFields.fnil => 0
  | JFields.fcons _ v rest => 1 + sizeVal v + sizeFields rest
end

def isDigitChar (c : Char) : Bool :=
  decide ('0' ≤ c) && decide (c ≤ '9')

def digitVal (c : Char) : Nat :=
  c.toNat - 48

def digitsToNat (cs : List Char) : Nat :=
  cs.foldl (fun acc c => acc * 10 + digitVal c) 0

/-- Body of a JSON string literal (after the opening quote): unescape up to
the closing quote.  `\u` sequences are outside the model. -/
def parseStrBody : List Char → Option (List Char × List Char)
  | [] => none
  | '\\' :: c :: rest =>
    (match c with
      | '"' => some '"'
      | '\\' => some '\\'
      | '/' => some '/'
      | 'n' => some '\n'
      | 't' => some '\t'
      | 'r' => some '\r'
      | _ => none).bind (fun d =>
        (parseStrBody rest).map (fun (p : List Char × List Char) => (d :: p.1, p.2)))
  | '"' :: rest => some ([], rest)
  | c :: rest => (parseStrBody rest).map (fun (p : List Char × List Char) => (c :: p.1, p.2))

mutual
/-- Recursive-descent model of `JSON.parse` on canonical input (no interior
whitespace); returns the value and the unconsumed rest. -/
def parseVal : Nat → List Char → Option (JVal × List Char)
  | 0, _ => none
  | fuel + 1, cs =>
    match cs with
    | 'n' :: 'u' :: 'l' :: 'l' :: rest => some (JVal.jnull, rest)
    | 't' :: 'r' :: 'u' :: 'e' :: rest => some (JVal.jbool true, rest)
    | 'f' :: 'a' :: 'l' :: 's' :: 'e' :: rest => some (JVal.jbool false, rest)
    | '"' :: rest => (parseStrBody rest).map (fun p => (JVal.jstr p.1, p.2))
    | '[' :: ']' :: rest => some (JVal.jarr JItems.inil, rest)
    | '[' :: rest =>
      (parseItemsGo fuel rest).map (fun p => (JVal.jarr p.1, p.2))
    | '{' :: '}' :: rest => some (JVal.jobj JFields.fnil, rest)
    | '{' :: rest =>
      (parseFieldsGo fuel rest).map (fun p => (JVal.jobj p.1, p.2))
    | '-' :: c :: rest =>
      if isDigitChar c then
        some (JVal.jnum (-((digitsToNat ((c :: rest).takeWhile isDigitChar) : Nat) : Int)),
          (c :: rest).dropWhile isDigitChar)
      else none
    | c :: rest =>
      if isDigitChar c then
        some (JVal.jnum ((digitsToNat ((c :: rest).takeWhile isDigitChar) : Nat) : Int),
          (c :: rest).dropWhile isDigitChar)
      else none
    | [] => none
def parseItemsGo : Nat → List Char → Option (JItems × List Char)
  | 0, _ => none
  | fuel + 1, cs =>
    (parseVal fuel cs).bind (fun p =>
      match p.2 with
      | ',' :: r2 =>
        (parseItemsGo fuel r2).map (fun q => (JItems.icons p.1 q.1, q.2))
      | ']' :: r2 => some (JItems.icons p.1 JItems.inil, r2)
      | _ => none)
def parseFieldsGo : Nat → List Char → Option (JFields × List Char)
  | 0, _ => none
  | fuel + 1, cs =>
    match cs with
    | '"' :: rest =>
      (parseStrBody rest).bind (fun pk =>
        match pk.2 with
        | ':' :: r2 =>
          (parseVal fuel r2).bind (fun pv =>
            match pv.2 with
            | ',' :: r3 =>
              (parseFieldsGo fuel r3).map (fun q =>
                (JFields.fcons pk.1 pv.1 q.1, q.2))
            | '}' :: r3 => some (JFields.fcons pk.1 pv.1 JFields.fnil, r3)
            | _ => none)
        | _ => none)
    | _ => none
end

/-- Model of `JSON.parse(text)`: the whole text must be one value. -/
def parseJson (cs : List Char) : Option JVal :=
  match parseVal (cs.length + 1) cs with
  | some (v, []) => some v
  | _ => none

/-! ## The JSON array streamer (part_004, `streamJsonArrayObjectsFromReadable`) -/

/-- `isWhitespace` (part_004 lines 187-189). -/
def jsonWsChar (c : Char) : Bool :=
  c = ' ' || c = '\n' || c = '\r' || c = '\t'

/-- The scanner state of the streamer, with the buffer and cursor of the
source.  `depth` is an integer as in JS. -/
structure ScannerState where
  buffer : List Char
  index : Nat
  started : Bool
  finished : Bool
  capturing : Bool
  tokenStart : Nat
  depth : Int
  inString : Bool
  escaped : Bool
  deriving DecidableEq, Repr

def sinit : ScannerState :=
  { buffer := [], index := 0, started := false, finished := false
    capturing := false, tokenStart := 0, depth := 0, inString := false
    escaped := false }

/-- One iteration of the `flushParsed` while-loop, given the character at
the cursor.  Yields at most one parsed object. -/
def scanIter (st : ScannerState) (c : Char) :
    Except String (ScannerState × Option JVal) :=
  if st.started = false then
    if jsonWsChar c then Except.ok ({ st with index := st.index + 1 }, none)
    else if c ≠ '[' then Except.error "Expected opening bracket at top level"
    else Except.ok ({ st with started := true, index := st.index + 1 }, none)
  else if st.finished = true then
    if jsonWsChar c then Except.ok ({ st with index := st.index + 1 }, none)
    else Except.error "Unexpected non-whitespace content after closing JSON array"
  else if st.capturing = false then
    if jsonWsChar c || c = ',' then Except.ok ({ st with index := st.index + 1 }, none)
    else if c = ']' then
      Except.ok ({ st with finished := true, index := st.index + 1 }, none)
    else if c ≠ '{' ∧ c ≠ '[' then
      Except.error "Expected JSON object item at array level"
    else
      Except.ok
        ({ st with
            capturing := true, tokenStart := st.index, depth := 1,
            inString := false, escaped := false, index := st.index + 1 }, none)
  else
    if st.inString = true then
      if st.escaped = true then
        Except.ok ({ st with escaped := false, index := st.index + 1 }, none)
      else if c = '\\' then
        Except.ok ({ st with escaped := true, index := st.index + 1 }, none)
      else if c = '"' then
        Except.ok ({ st with inString := false, index := st.index + 1 }, none)
      else Except.ok ({ st with index := st.index + 1 }, none)
    else if c = '"' then
      Except.ok ({ st with inString := true, index := st.index + 1 }, none)
    else
      let depth2 : Int :=
        if c = '{' ∨ c = '[' then st.depth + 1
        else if c = '}' ∨ c = ']' then st.depth - 1
        else st.depth
      if depth2 = 0 then
        match parseJson ((st.buffer.take (st.index + 1)).drop st.tokenStart) with
        | some v =>
          if v.isObj then
            Except.ok
              ({ st with
                  buffer := st.buffer.drop (st.index + 1), index := 0,
                  capturing := false, tokenStart := 0, depth := depth2 }, some v)
          else Except.error "Top-level array item is not an object"
        | none => Except.error "Invalid JSON in array item"
      else Except.ok ({ st with depth := depth2, index := st.index + 1 }, none)

/-- The `flushParsed` while-loop: run until the cursor reaches the end of
the buffer.  `fuel = buffer.length + 1` always suffices, as every iteration
consumes one character. -/
def flushLoop : Nat → ScannerState → List JVal →
    Except String (ScannerState × List JVal)
  | 0, st, acc => Except.ok (st, acc)
  | fuel + 1, st, acc =>
    if h : st.index < st.buffer.length then
      match scanIter st (st.buffer.get ⟨st.index, h⟩) with
      | Except.error e => Except.error e
      | Except.ok (st2, none) => flushLoop fuel st2 acc
      | Except.ok (st2, some v) => flushLoop fuel st2 (acc ++ [v])
    else Except.ok (st, acc)

/-- The buffer-reclaiming slices after the loop (part_004 lines 141-148). -/
def flushTail (st : ScannerState) : ScannerState :=
  if st.capturing = true ∧ st.tokenStart > 0 then
    { st with buffer := st.buffer.drop st.tokenStart,
              index := st.index - st.tokenStart, tokenStart := 0 }
  else if st.capturing = false ∧ st.index > 0 then
    { st with buffer := st.buffer.drop st.index, index := 0 }
  else st

/-- `flushParsed` (part_004 lines 43-163). -/
def flushParsed (isFinal : Bool) (st : ScannerState) :
    Except String (ScannerState × List JVal) :=
  match flushLoop (st.buffer.length + 1) st [] with
  | Except.error e => Except.error e
  | Except.ok (st2, acc) =>
    if isFinal then
      if (flushTail st2).started = false then
        Except.error "Input is not a JSON array"
      else if (flushTail st2).capturing = true then
        Except.error "Unexpected EOF while parsing JSON object"
      else if (flushTail st2).finished = false then
        Except.error "Unexpected EOF while parsing top-level JSON array"
      else Except.ok (flushTail st2, acc)
    else Except.ok (flushTail st2, acc)

/-- Appending one decoded chunk to the buffer and flushing (the body of the
`for await` loop; empty chunks are skipped by the source, and feeding one is
a no-op here). -/
def feedChunk (st : ScannerState) (chunk : List Char) :
    Except String (ScannerState × List JVal) :=
  flushParsed false { st with buffer := st.buffer ++ chunk }

def streamGo : ScannerState → List (List Char) → Except String (List JVal)
  | st, [] =>
    match flushParsed true st with
    | Except.error e => Except.error e
    | Except.ok (_, acc) => Except.ok acc
  | st, chunk :: rest =>
    match feedChunk st chunk with
    | Except.error e => Except.error e
    | Except.ok (st2, acc) => (streamGo st2 rest).map (fun vs => acc ++ vs)

/-- `streamJsonArrayObjectsFromReadable` (part_004 lines 28-185), on a
readable stream modelled as its list of decoded chunks. -/
def streamJsonArrayObjectsFromReadable (chunks : List (List Char)) :
    Except String (List JVal) :=
  streamGo sinit chunks

instance instDecEqExcept {ε α : Type} [DecidableEq ε] [DecidableEq α] :
    DecidableEq (Except ε α) := fun x y =>
  match x, y with
  | Except.error e, Except.error f =>
    if h : e = f then Decidable.isTrue (by rw [h])
    else Decidable.isFalse (fun hh => h (by cases hh; rfl))
  | Except.error _, Except.ok _ => Decidable.isFalse (fun hh => Except.noConfusion hh)
  | Except.ok _, Except.error _ => Decidable.isFalse (fun hh => Except.noConfusion hh)
  | Except.ok a, Except.ok b =>
    if h : a = b then Decidable.isTrue (by rw [h])
    else Decidable.isFalse (fun hh => h (by cases hh; rfl))

/-! ## Character-level scanner machine (abstraction of the indexed loop) -/

/-- The loop state with the buffer bookkeeping abstracted away: `pending`
holds the characters of the partially captured object. -/
structure MState where
  started : Bool
  finished : Bool
  capturing : Bool
  pending : List Char
  depth : Int
  inString : Bool
  escaped : Bool
  deriving DecidableEq, Repr

def minit : MState :=
  { started := false, finished := false, capturing := false, pending := []
    depth := 0, inString := false, escaped := false }

/-- One scanner step on one character. -/
def mstep (st : MState) (c : Char) : Except String (MState × Option JVal) :=
  if st.started = false then
    if jsonWsChar c then Except.ok (st, none)
    else if c ≠ '[' then Except.error "Expected opening bracket at top level"
    else Except.ok ({ st with started := true }, none)
  else if st.finished = true then
    if jsonWsChar c then Except.ok (st, none)
    else Except.error "Unexpected non-whitespace content after closing JSON array"
  else if st.capturing = false then
    if jsonWsChar c || c = ',' then Except.ok (st, none)
    else if c = ']' then Except.ok ({ st with finished := true }, none)
    else if c ≠ '{' ∧ c ≠ '[' then
      Except.error "Expected JSON object item at array level"
    else
      Except.ok
        ({ st with
            capturing := true, pending := [c], depth := 1,
            inString := false, escaped := false }, none)
  else
    if st.inString = true then
      if st.escaped = true then
        Except.ok ({ st with escaped := false, pending := st.pending ++ [c] }, none)
      else if c = '\\' then
        Except.ok ({ st with escaped := true, pending := st.pending ++ [c] }, none)
      else if c = '"' then
        Except.ok ({ st with inString := false, pending := st.pending ++ [c] }, none)
      else Except.ok ({ st with pending := st.pending ++ [c] }, none)
    else if c = '"' then
      Except.ok ({ st with inString := true, pending := st.pending ++ [c] }, none)
    else
      let depth2 : Int :=
        if c = '{' ∨ c = '[' then st.depth + 1
        else if c = '}' ∨ c = ']' then st.depth - 1
        else st.depth
      if depth2 = 0 then
        match parseJson (st.pending ++ [c]) with
        | some v =>
          if v.isObj then
            Except.ok ({ st with capturing := false, pending := [], depth := depth2 },
              some v)
          else Except.error "Top-level array item is not an object"
        | none => Except.error "Invalid JSON in array item"
      else Except.ok ({ st with depth := depth2, pending := st.pending ++ [c] }, none)

def runM : MState → List Char → Except String (MState × List JVal)
  | st, [] => Except.ok (st, [])
  | st, c :: rest =>
    match mstep st c with
    | Except.error e => Except.error e
    | Except.ok (st2, none) => runM st2 rest
    | Except.ok (st2, some v) =>
      match runM st2 rest with
      | Except.error e => Except.error e
      | Except.ok (st3, vs) => Except.ok (st3, v :: vs)

/-- The machine run with the EOF checks of the final flush. -/
def runMFinal (st : MState) (cs : List Char) : Except String (List JVal) :=
  match runM st cs with
  | Except.error e => Except.error e
  | Except.ok (st2, vs) =>
    if st2.started = false then Except.error "Input is not a JSON array"
    else if st2.capturing = true then
      Except.error "Unexpected EOF while parsing JSON object"
    else if st2.finished = false then
      Except.error "Unexpected EOF while parsing top-level JSON array"
    else Except.ok vs

/-- Abstraction from the indexed loop state to the machine state. -/
def absState (st : ScannerState) : MState :=
  { started := st.started, finished := st.finished, capturing := st.capturing
    pending :=
      if st.capturing = true then (st.buffer.take st.index).drop st.tokenStart
      else []
    depth := st.depth, inString := st.inString, escaped := st.escaped }

/-- Cursor well-formedness of a scanner state, with the flag invariants the
loop maintains. -/
def SWF (st : ScannerState) : Prop :=
  st.index ≤ st.buffer.length ∧ st.tokenStart ≤ st.index ∧
    (st.capturing = false → st.tokenStart = 0) ∧
    (st.capturing = true → st.started = true ∧ st.finished = false)

/-- Normal form reached after every flush: the cursor sits at the end of the
buffer, which holds exactly the pending partial token. -/
def SNormal (st : ScannerState) : Prop :=
  st.index = st.buffer.length ∧ st.tokenStart = 0 ∧
    (st.capturing = false → st.buffer = [])

/-- The state between top-level elements (also right after `[` and after
every yield). -/
def mBetween : MState :=
  { started := true, finished := false, capturing := false, pending := []
    depth := 0, inString := false, escaped := false }

/-- A capturing state with pending token `p` at depth `d`. -/
def mkCap (p : List Char) (d : Int) (isStr esc : Bool) : MState :=
  { started := true, finished := false, capturing := true, pending := p
    depth := d, inString := isStr, escaped := esc }

/-- Separator characters the streamer skips between elements. -/
def sepChar (c : Char) : Bool :=
  jsonWsChar c || c = ','

/-- The state after the closing bracket of the top-level array. -/
def mFin : MState :=
  { mBetween with finished := true }

/-- Whether the first character (if any) is a decimal digit; guards number
parsing against runaway `takeWhile`. -/
def headNotDigit : List Char → Bool
  | [] => true
  | c :: _ => !(isDigitChar c)

/-- Characters that, while capturing outside a string, neither open nor
close a brace level nor start a string. -/
def plainCapChar (c : Char) : Bool :=
  !(c = '"' || c = '{' || c = '[' || c = '}' || c = ']')

/-- The encoding of an array body: each element is preceded by its own run
of separator characters (whitespace and commas). -/
def seqOf (ps : List (List Char × JVal)) : List Char :=
  (ps.map (fun p => p.1 ++ renderVal p.2)).join

/-! ## Theorems: string primitive algebra -/

theorem dropWhile_self {α : Type} (p : α → Bool) (cs : List α) :
    (cs.dropWhile p).dropWhile p = cs.dropWhile p := by
  induction cs with
  | nil => rfl
  | cons c rest ih =>
    by_cases h : p c
    · simp [List.dropWhile_cons, h, ih]
    · simp [List.dropWhile_cons, h]

theorem dropWhile_append_single {α : Type} [DecidableEq α] {p : α → Bool} {c : α}
    (hc : p c = false) (xs : List α) :
    (xs ++ [c]).dropWhile p =
      if xs.dropWhile p = [] then [c] else xs.dropWhile p ++ [c] := by
  induction xs with
  | nil => simp [List.dropWhile_cons, hc]
  | cons x rest ih =>
    by_cases h : p x
    · simpa [List.dropWhile_cons, h] using ih
    · simp [List.dropWhile_cons, h]

theorem dropWhile_head_false {α : Type} {p : α → Bool} {cs : List α} {c : α}
    {rest : List α} (h : cs.dropWhile p = c :: rest) : p c = false := by
  induction cs with
  | nil => simp at h
  | cons x xs ih =>
    by_cases hx : p x
    · exact ih (by simpa [List.dropWhile_cons, hx] using h)
    · rw [List.dropWhile_cons] at h
      simp [hx] at h
      simpa [h.1] using hx

theorem trimChars_shape (cs : List Char) :
    trimChars cs = [] ∨
      ∃ c t, trimChars cs = c :: t ∧ jsWs c = false := by
  unfold trimChars
  rcases hd : cs.dropWhile jsWs with _ | ⟨c, rest⟩
  · simp
  · have hc : jsWs c = false := dropWhile_head_false hd
    right
    rw [show (c :: rest).reverse = rest.reverse ++ [c] by simp]
    rw [dropWhile_append_single hc]
    by_cases hrev : rest.reverse.dropWhile jsWs = []
    · exact ⟨c, [], by simp [hrev], hc⟩
    · exact ⟨c, (rest.reverse.dropWhile jsWs).reverse, by simp [hrev], hc⟩

theorem trimChars_dropWhile (cs : List Char) :
    (trimChars cs).dropWhile jsWs = trimChars cs := by
  rcases trimChars_shape cs with h | ⟨c, t, h, hc⟩
  · simp [h]
  · simp [h, List.dropWhile_cons, hc]

theorem trimChars_idem (cs : List Char) :
    trimChars (trimChars cs) = trimChars cs := by
  have h2 : (trimChars cs).reverse = (cs.dropWhile jsWs).reverse.dropWhile jsWs := by
    unfold trimChars
    exact List.reverse_reverse _
  show ((((trimChars cs).dropWhile jsWs).reverse).dropWhile jsWs).reverse = trimChars cs
  rw [trimChars_dropWhile cs, h2, dropWhile_self, ← h2, List.reverse_reverse]

theorem jsTrim_idem (s : String) : jsTrim (jsTrim s) = jsTrim s := by
  unfold jsTrim
  exact congrArg String.mk (trimChars_idem s.data)

theorem toStringArrayStr_idem (xs : List String) :
    toStringArrayStr (toStringArrayStr xs) = toStringArrayStr xs := by
  unfold toStringArrayStr
  have hmap : ∀ y ∈ ((xs.map jsTrim).filter (fun x => x ≠ "")), jsTrim y = y := by
    intro y hy
    have hy2 := (List.mem_filter.mp hy).1
    rcases List.mem_map.mp hy2 with ⟨x, _, hx⟩
    rw [← hx, jsTrim_idem]
  rw [List.map_congr_left hmap |>.trans (List.map_id _)]
  apply List.filter_eq_self.mpr
  intro a ha
  exact (List.mem_filter.mp ha).2

theorem safeString_of_fixed {s : String} (h : safeString s "" = s) (hne : s ≠ "")
    (d : String) : safeString s d = s := by
  unfold safeString at h ⊢
  by_cases ht : jsTrim (safeText s) = ""
  · rw [ht] at h
    simp at h
    exact absurd h.symm hne
  · simp [ht] at h ⊢
    exact h

/-! ## Theorems: memory compaction -/

theorem jsSetDedup_foldl_ne_nil (xs : List String) (acc : List String)
    (h : acc ≠ []) :
    xs.foldl (fun acc k => if k ∈ acc then acc else acc ++ [k]) acc ≠ [] := by
  induction xs generalizing acc with
  | nil => simpa using h
  | cons x rest ih =>
    rw [List.foldl_cons]
    by_cases hx : x ∈ acc
    · exact ih _ (by simp [hx, h])
    · exact ih _ (by simp [hx])

theorem jsSetDedup_ne_nil {xs : List String} (h : xs ≠ []) : jsSetDedup xs ≠ [] := by
  rcases xs with _ | ⟨k, rest⟩
  · exact absurd rfl h
  · unfold jsSetDedup
    rw [List.foldl_cons]
    exact jsSetDedup_foldl_ne_nil rest _ (by simp)

theorem mem_mergeFirst {sig : String} {keys : List String} {content : String}
    {pri : Int} {out : List MemoryCandidate} {e : MemoryCandidate}
    (h : e ∈ mergeFirst sig keys content pri out) :
    e ∈ out ∨ ∃ x ∈ out, e = mergeCandidate x keys content pri := by
  induction out with
  | nil => simp [mergeFirst] at h
  | cons item rest ih =>
    rw [mergeFirst] at h
    by_cases hm : entrySignature item = sig
    · simp [hm] at h
      rcases h with h | h
      · exact Or.inr ⟨item, by simp, h⟩
      · exact Or.inl (by simp [h])
    · simp [hm] at h
      rcases h with h | h
      · exact Or.inl (by simp [h])
      · rcases ih h with h2 | ⟨x, hx, he⟩
        · exact Or.inl (by simp [h2])
        · exact Or.inr ⟨x, by simp [hx], he⟩

theorem compactStep_wellformed {out : List MemoryCandidate}
    (hout : ∀ e ∈ out, e.content ≠ "" ∧ e.keys ≠ [])
    (c : MemoryCandidate) :
    ∀ e ∈ compactStep out c, e.content ≠ "" ∧ e.keys ≠ [] := by
  intro e he
  unfold compactStep at he
  by_cases hguard : safeString c.content "" = "" ∨ toStringArrayStr c.keys = []
  · rw [if_pos hguard] at he
    exact hout e he
  · rw [if_neg hguard] at he
    push_neg at hguard
    by_cases hany :
        out.any (fun item =>
          entrySignature item = memSignature (safeString c.content "") (toStringArrayStr c.keys))
    · rw [if_pos hany] at he
      rcases mem_mergeFirst he with h | ⟨x, hx, hmerge⟩
      · exact hout e h
      · have hxwf := hout x hx
        rw [hmerge]
        unfold mergeCandidate
        constructor
        · by_cases hlen :
              (safeString c.content "").length > (safeString x.content "").length
          · simpa [hlen] using hguard.1
          · simpa [hlen] using hxwf.1
        · apply jsSetDedup_ne_nil
          intro hnil
          exact hguard.2 (by simpa using (List.append_eq_nil.mp hnil).2
          )
    · rw [if_neg hany] at he
      rcases List.mem_append.mp he with h | h
      · exact hout e h
      · have : e = freshEntry c (out.length + 1) := by simpa using h
        rw [this]
        unfold freshEntry
        exact ⟨hguard.1, hguard.2⟩

/-- C10: every entry produced by `compactMemories` has non-empty content and
at least one key, and a candidate whose sanitised content is empty or whose
key list sanitises to nothing is silently dropped from the compaction. -/
theorem compactMemories_entries_wellformed (xs : List MemoryCandidate) :
    (∀ e ∈ compactMemories xs, e.content ≠ "" ∧ e.keys ≠ []) ∧
    (∀ c, safeString c.content "" = "" ∨ toStringArrayStr c.keys = [] →
      ∀ pre post : List MemoryCandidate,
        compactMemories (pre ++ c :: post) = compactMemories (pre ++ post)) := by
  constructor
  · have haux : ∀ (ys : List MemoryCandidate) (out : List MemoryCandidate),
        (∀ e ∈ out, e.content ≠ "" ∧ e.keys ≠ []) →
        ∀ e ∈ ys.foldl compactStep out, e.content ≠ "" ∧ e.keys ≠ [] := by
      intro ys
      induction ys with
      | nil => intro out hout; simpa using hout
      | cons c rest ih =>
        intro out hout
        rw [List.foldl_cons]
        exact ih _ (compactStep_wellformed hout c)
    exact haux xs [] (by simp)
  · intro c hc pre post
    unfold compactMemories
    rw [List.foldl_append, List.foldl_append, List.foldl_cons]
    have : compactStep (pre.foldl compactStep []) c = pre.foldl compactStep [] := by
      unfold compactStep
      rw [if_pos hc]
    rw [this]

/-- Witness for `compactMemories_entries_wellformed` at concrete inputs. -/
theorem compactMemories_entries_wellformed_witness :
    (memExA.content ≠ "" ∧ memExA.keys ≠ []) ∧
      compactMemories ([] ++ memExBad :: [memExA]) = compactMemories ([] ++ [memExA]) :=
  ⟨(compactMemories_entries_wellformed [memExA]).1 memExA (by decide),
   (compactMemories_entries_wellformed []).2 memExBad (Or.inr (by decide)) [] [memExA]⟩

theorem compactStep_of_sane {acc : List MemoryCandidate} {e : MemoryCandidate}
    (hs : SelfSane e) (hsig : ∀ a ∈ acc, entrySignature a ≠ entrySignature e) :
    compactStep acc e = acc ++ [e] := by
  obtain ⟨hname, hnameNe, hkeys, hkeysNe, hcontent, hcontentNe, hcat, hcatNe,
    hsrc, hdate⟩ := hs
  have hes : memSignature (safeString e.content "") (toStringArrayStr e.keys) =
      entrySignature e := rfl
  have hfresh : freshEntry e (acc.length + 1) = e := by
    unfold freshEntry
    rw [safeString_of_fixed hname hnameNe, safeString_of_fixed hcat hcatNe,
      hkeys, hcontent, hsrc, hdate]
  unfold compactStep
  rw [if_neg (by
    push_neg
    constructor
    · rw [hcontent]; exact hcontentNe
    · rw [hkeys]; exact hkeysNe)]
  rw [if_neg (by
    simp only [List.any_eq_true, not_exists, not_and]
    intro a ha
    rw [hes]
    simpa using hsig a ha)]
  rw [hfresh]

theorem foldl_compactStep_sane :
    ∀ (es acc : List MemoryCandidate), (∀ e ∈ es, SelfSane e) →
      (∀ a ∈ acc, ∀ e ∈ es, entrySignature a ≠ entrySignature e) →
      es.Pairwise (fun a b => entrySignature a ≠ entrySignature b) →
      es.foldl compactStep acc = acc ++ es := by
  intro es
  induction es with
  | nil => intro acc _ _ _; simp
  | cons e rest ih =>
    intro acc hsane hacc hpair
    rw [List.foldl_cons,
      compactStep_of_sane (hsane e (by simp)) (fun a ha => hacc a ha e (by simp))]
    rw [ih (acc ++ [e]) (fun x hx => hsane x (by simp [hx]))
      (by
        intro a ha x hx
        rcases List.mem_append.mp ha with h | h
        · exact hacc a h x (by simp [hx])
        · have : a = e := by simpa using h
          rw [this]
          exact (List.pairwise_cons.mp hpair).1 x hx)
      (List.pairwise_cons.mp hpair).2]
    simp

/-- C7 (amended): `compactMemories` is idempotent on every input whose
compacted entries are sanitation-stable and carry pairwise distinct dedup
signatures; the unrestricted idempotence claimed by the spec fails (see the
counterexample). -/
theorem compactMemories_idempotent_of_sane (xs : List MemoryCandidate)
    (hsane : ∀ e ∈ compactMemories xs, SelfSane e)
    (hpair : (compactMemories xs).Pairwise
      (fun a b => entrySignature a ≠ entrySignature b)) :
    compactMemories (compactMemories xs) = compactMemories xs := by
  unfold compactMemories at hsane hpair ⊢
  rw [foldl_compactStep_sane _ [] hsane (by simp) hpair]
  simp

/-- Witness for `compactMemories_idempotent_of_sane` at a concrete input. -/
theorem compactMemories_idempotent_of_sane_witness :
    compactMemories (compactMemories [memExA, memExE]) =
      compactMemories [memExA, memExE] :=
  compactMemories_idempotent_of_sane [memExA, memExE] (by decide) (by decide)

/-- C7 (counterexample): `compactMemories` is not idempotent.  In the first
input a merge mutates the first entry's key list, creating a signature
collision that only the second pass sees; in the second input the CRLF
normalisation inside `safeString` collapses `"a\r\r\nb"` in two steps. -/
theorem compactMemories_not_idempotent :
    compactMemories (compactMemories [memExA, memExB, memExC]) ≠
        compactMemories [memExA, memExB, memExC] ∧
      compactMemories (compactMemories [memExD]) ≠ compactMemories [memExD] := by
  decide

theorem tsa_freshEntry_keys (a : MemoryCandidate) (idx : Nat) :
    toStringArrayStr (freshEntry a idx).keys = toStringArrayStr a.keys := by
  unfold freshEntry
  exact toStringArrayStr_idem a.keys

/-- C6 (amended): merging a duplicate-signature pair keeps the first entry's
name, category and source fields unchanged, takes the exact-string
insertion-ordered union of the sanitised key lists and the maximum priority,
and replaces the stored content by the duplicate's sanitised content exactly
when the latter is strictly longer than the stored content passed through
sanitisation once more (the code re-applies `safeString` to the stored
content for the length comparison, so a stored content that is not a
sanitisation fixed point is measured at its shorter, doubly-normalised
length); otherwise the stored once-sanitised content is kept. -/
theorem compactMemories_merge_pair (a b : MemoryCandidate)
    (ha1 : safeString a.content "" ≠ "") (ha2 : toStringArrayStr a.keys ≠ [])
    (hb1 : safeString b.content "" ≠ "") (hb2 : toStringArrayStr b.keys ≠ [])
    (hsig : entrySignature (freshEntry a 1) =
      memSignature (safeString b.content "") (toStringArrayStr b.keys)) :
    compactMemories [a, b] =
      [{ name := safeString a.name "Memory 1"
         keys := jsSetDedup (toStringArrayStr a.keys ++ toStringArrayStr b.keys)
         content :=
           if (safeString b.content "").length >
               (safeString (safeString a.content "") "").length
           then safeString b.content "" else safeString a.content ""
         category := safeString a.category "shared_memory"
         priority := max a.priority b.priority
         sourceConversation := safeString a.sourceConversation ""
         sourceDate := safeString a.sourceDate "" }] := by
  have hstepa : compactStep [] a = [freshEntry a 1] := by
    unfold compactStep
    rw [if_neg (by push_neg; exact ⟨ha1, ha2⟩)]
    simp
  have hstepb : compactStep [freshEntry a 1] b =
      [mergeCandidate (freshEntry a 1) (toStringArrayStr b.keys)
        (safeString b.content "") b.priority] := by
    unfold compactStep
    rw [if_neg (by push_neg; exact ⟨hb1, hb2⟩)]
    rw [if_pos (by
      simp only [List.any_cons, List.any_nil, Bool.or_false, decide_eq_true_eq]
      exact hsig)]
    rw [mergeFirst]
    rw [if_pos hsig]
  show List.foldl compactStep [] [a, b] = _
  rw [List.foldl_cons, List.foldl_cons, List.foldl_nil, hstepa, hstepb]
  unfold mergeCandidate freshEntry
  simp only [MemoryCandidate.mk.injEq, List.cons.injEq, and_true, true_and]
  refine ⟨rfl, ?_, ?_⟩
  · rw [toStringArrayStr_idem]
  · rcases le_or_lt b.priority a.priority with h | h
    · rw [if_neg (by omega), max_eq_left h]
    · rw [if_pos h, max_eq_right (le_of_lt h)]

/-- Witness for `compactMemories_merge_pair` at a concrete pair. -/
theorem compactMemories_merge_pair_witness :
    compactMemories [memExE, memExF] =
      [{ name := safeString memExE.name "Memory 1"
         keys := jsSetDedup (toStringArrayStr memExE.keys ++ toStringArrayStr memExF.keys)
         content :=
           if (safeString memExF.content "").length >
               (safeString (safeString memExE.content "") "").length
           then safeString memExF.content "" else safeString memExE.content ""
         category := safeString memExE.category "shared_memory"
         priority := max memExE.priority memExF.priority
         sourceConversation := safeString memExE.sourceConversation ""
         sourceDate := safeString memExE.sourceDate "" }] :=
  compactMemories_merge_pair memExE memExF (by decide) (by decide) (by decide)
    (by decide) (by decide)

/-! ## Theorems: placeholder preservation -/

theorem bool_and_true {a b : Bool} (h : (a && b) = true) :
    a = true ∧ b = true := by
  rw [Bool.and_eq_true] at h
  exact h

theorem isPrefixOf_nil_left (s : List Char) : List.isPrefixOf [] s = true := by
  cases s <;> rfl

theorem isPrefixOf_cons_nil (a : Char) (as : List Char) :
    List.isPrefixOf (a :: as) [] = false := rfl

theorem isPrefixOf_cons_cons (a b : Char) (as bs : List Char) :
    List.isPrefixOf (a :: as) (b :: bs) = (a == b && List.isPrefixOf as bs) := rfl

theorem pfx_append_self (t w : List Char) : t.isPrefixOf (t ++ w) = true := by
  induction t with
  | nil => exact isPrefixOf_nil_left _
  | cons c rest ih =>
    rw [List.cons_append, isPrefixOf_cons_cons, ih]
    simp

theorem pfx_length_le : ∀ (a b : List Char), a.isPrefixOf b = true →
    a.length ≤ b.length := by
  intro a
  induction a with
  | nil => intro b _; simp
  | cons c as ih =>
    intro b h
    cases b with
    | nil => rw [isPrefixOf_cons_nil] at h; exact absurd h (by simp)
    | cons d bs =>
      rw [isPrefixOf_cons_cons] at h
      have := ih bs (bool_and_true h).2
      simpa using this

theorem pfx_drop_mono : ∀ (j : Nat) (a b : List Char), a.isPrefixOf b = true →
    (a.drop j).isPrefixOf (b.drop j) = true := by
  intro j
  induction j with
  | zero => intro a b h; simpa using h
  | succ j ih =>
    intro a b h
    cases a with
    | nil => exact isPrefixOf_nil_left _
    | cons c as =>
      cases b with
      | nil => rw [isPrefixOf_cons_nil] at h; exact absurd h (by simp)
      | cons d bs =>
        rw [isPrefixOf_cons_cons] at h
        simpa using ih as bs (bool_and_true h).2

theorem pfx_compare : ∀ (x a b : List Char), a.isPrefixOf x = true →
    b.isPrefixOf x = true → a.isPrefixOf b = true ∨ b.isPrefixOf a = true := by
  intro x
  induction x with
  | nil =>
    intro a b ha _
    cases a with
    | nil => exact Or.inl (isPrefixOf_nil_left _)
    | cons c as => rw [isPrefixOf_cons_nil] at ha; exact absurd ha (by simp)
  | cons c x' ih =>
    intro a b ha hb
    cases a with
    | nil => exact Or.inl (isPrefixOf_nil_left _)
    | cons ca as =>
      cases b with
      | nil => exact Or.inr (isPrefixOf_nil_left _)
      | cons cb bs =>
        rw [isPrefixOf_cons_cons] at ha hb
        have ha1 : ca = c := by simpa using (bool_and_true ha).1
        have hb1 : cb = c := by simpa using (bool_and_true hb).1
        rcases ih as bs (bool_and_true ha).2 (bool_and_true hb).2 with
          h | h
        · exact Or.inl (by rw [isPrefixOf_cons_cons, h, ha1, hb1]; simp)
        · exact Or.inr (by rw [isPrefixOf_cons_cons, h, ha1, hb1]; simp)

theorem countOcc_le_append (t v w : List Char) :
    countOcc t w ≤ countOcc t (v ++ w) := by
  induction v with
  | nil => simp
  | cons c v' ih =>
    rw [List.cons_append]
    show countOcc t w ≤
      (if t.isPrefixOf (c :: (v' ++ w)) = true then 1 else 0) + countOcc t (v' ++ w)
    exact le_trans ih (Nat.le_add_left _ _)

theorem countOcc_prepend_self (t w : List Char) (ht : t ≠ []) :
    1 + countOcc t w ≤ countOcc t (t ++ w) := by
  cases t with
  | nil => exact absurd rfl ht
  | cons c t' =>
    rw [List.cons_append]
    show _ ≤ (if List.isPrefixOf (c :: t') (c :: (t' ++ w)) = true then 1 else 0) +
      countOcc (c :: t') (t' ++ w)
    rw [show List.isPrefixOf (c :: t') (c :: (t' ++ w)) = true from by
      rw [← List.cons_append]; exact pfx_append_self (c :: t') w]
    simp only [if_pos rfl]
    exact Nat.add_le_add_left (countOcc_le_append _ t' w) 1

theorem countOcc_drop_le (t : List Char) :
    ∀ (k : Nat) (s : List Char),
      (∀ j, 0 < j → j < k → t.isPrefixOf (s.drop j) = false) →
      countOcc t s ≤ (if t.isPrefixOf s = true then 1 else 0) + countOcc t (s.drop k) := by
  intro k
  induction k with
  | zero =>
    intro s _
    exact Nat.le_add_left _ _
  | succ k ih =>
    intro s h
    cases s with
    | nil => simp [countOcc]
    | cons c rest =>
      have hdrop : (c :: rest).drop (k + 1) = rest.drop k := rfl
      rw [hdrop]
      by_cases hk : k = 0
      · subst hk
        show (if t.isPrefixOf (c :: rest) = true then 1 else 0) + countOcc t rest ≤ _
        simp
      · have hnot : t.isPrefixOf rest = false := by
          have := h 1 (by omega) (by omega)
          simpa using this
        have hrest := ih rest (fun j hj hjk => by
          have := h (j + 1) (by omega) (by omega)
          simpa using this)
        rw [hnot] at hrest
        simp only [Bool.false_eq_true, if_false, Nat.zero_add] at hrest
        show (if t.isPrefixOf (c :: rest) = true then 1 else 0) + countOcc t rest ≤ _
        exact Nat.add_le_add_left hrest _

theorem replaceAllFuel_fuel_irrel (pat rep : List Char) :
    ∀ (fuel1 : Nat) (s : List Char) (fuel2 : Nat), s.length ≤ fuel1 →
      s.length ≤ fuel2 →
      replaceAllFuel pat rep fuel1 s = replaceAllFuel pat rep fuel2 s := by
  intro fuel1
  induction fuel1 with
  | zero =>
    intro s fuel2 h1 _
    have hs : s = [] := by
      cases s with
      | nil => rfl
      | cons c rest => simp at h1
    subst hs
    cases fuel2 <;> rfl
  | succ fuel ih =>
    intro s fuel2 h1 h2
    cases s with
    | nil => cases fuel2 <;> rfl
    | cons c rest =>
      cases fuel2 with
      | zero => simp at h2
      | succ fuel2' =>
        simp only [List.length_cons] at h1 h2
        by_cases hm : pat ≠ [] ∧ pat.isPrefixOf (c :: rest) = true
        · have hpat : 1 ≤ pat.length := List.length_pos.mpr hm.1
          simp only [replaceAllFuel, if_pos hm]
          rw [ih ((c :: rest).drop pat.length) fuel2'
            (by simp [List.length_drop, List.length_cons]; omega)
            (by simp [List.length_drop, List.length_cons]; omega)]
        · simp only [replaceAllFuel, if_neg hm]
          rw [ih rest fuel2' (by simpa using Nat.le_of_succ_le_succ h1)
            (by simpa using Nat.le_of_succ_le_succ h2)]

theorem replaceAllFuel_decomp (pat rep : List Char) :
    ∀ (u s : List Char) (fuel : Nat), u.isPrefixOf s = true →
      (∀ j, j < u.length → pat.isPrefixOf (s.drop j) = false) →
      s.length ≤ fuel →
      replaceAllFuel pat rep fuel s =
        u ++ replaceAllFuel pat rep (fuel - u.length) (s.drop u.length) := by
  intro u
  induction u with
  | nil => intro s fuel _ _ _; simp
  | cons cu u' ih =>
    intro s fuel hu hnp hlen
    cases s with
    | nil => rw [isPrefixOf_cons_nil] at hu; exact absurd hu (by simp)
    | cons c rest =>
      cases fuel with
      | zero => simp at hlen
      | succ fuel' =>
        rw [isPrefixOf_cons_cons] at hu
        have hcu : cu = c := by simpa using (bool_and_true hu).1
        have hu' : u'.isPrefixOf rest = true := (bool_and_true hu).2
        have hp0 : pat.isPrefixOf (c :: rest) = false := by
          simpa using hnp 0 (by simp)
        have hstep : replaceAllFuel pat rep (fuel' + 1) (c :: rest) =
            c :: replaceAllFuel pat rep fuel' rest := by
          simp only [replaceAllFuel]
          rw [if_neg (by
            intro hcon
            rw [hp0] at hcon
            exact absurd hcon.2 (by simp))]
        rw [hstep, ih rest fuel' hu'
          (fun j hj => by
            have := hnp (j + 1) (by simpa using Nat.succ_lt_succ hj)
            simpa using this)
          (by simpa using Nat.le_of_succ_le_succ hlen)]
        simp [hcu, Nat.succ_sub_succ]

theorem countOcc_le_replaceAllFuel {pat t : List Char} (rep : List Char)
    (hpne : pat ≠ []) (htne : t ≠ []) (hno : NoOverlap pat t) :
    ∀ (fuel : Nat) (s : List Char), s.length ≤ fuel →
      countOcc t s ≤ countOcc t (replaceAllFuel pat rep fuel s) := by
  obtain ⟨hno1, hno2, hno3⟩ := hno
  intro fuel
  induction fuel with
  | zero =>
    intro s h
    cases s with
    | nil => simp [replaceAllFuel, countOcc]
    | cons c rest => simp at h
  | succ fuel ih =>
    intro s hlen
    cases s with
    | nil => simp [replaceAllFuel, countOcc]
    | cons c rest =>
      have hpat1 : 1 ≤ pat.length := List.length_pos.mpr hpne
      have ht1 : 1 ≤ t.length := List.length_pos.mpr htne
      by_cases hm : pat.isPrefixOf (c :: rest) = true
      · have hstep : replaceAllFuel pat rep (fuel + 1) (c :: rest) =
            rep ++ replaceAllFuel pat rep fuel ((c :: rest).drop pat.length) := by
          simp only [replaceAllFuel]
          rw [if_pos ⟨hpne, hm⟩]
        rw [hstep]
        have hA : ∀ j, j < pat.length →
            t.isPrefixOf ((c :: rest).drop j) = false := by
          intro j hj
          cases hb : t.isPrefixOf ((c :: rest).drop j) with
          | false => rfl
          | true =>
            exfalso
            have hpd : (pat.drop j).isPrefixOf ((c :: rest).drop j) = true :=
              pfx_drop_mono j _ _ hm
            rcases pfx_compare _ _ _ hb hpd with h2 | h2
            · simp [(hno1 j (List.mem_range.mpr hj)).1] at h2
            · simp [(hno1 j (List.mem_range.mpr hj)).2] at h2
        have hat0 : t.isPrefixOf (c :: rest) = false := by
          simpa using hA 0 (by omega)
        have hLHS : countOcc t (c :: rest) ≤
            countOcc t ((c :: rest).drop pat.length) := by
          have := countOcc_drop_le t pat.length (c :: rest)
            (fun j _ hjk => hA j hjk)
          rw [hat0] at this
          simpa using this
        refine hLHS.trans ((ih _ ?_).trans (countOcc_le_append t rep _))
        simp [List.length_drop, List.length_cons] at hlen ⊢
        omega
      · by_cases ht : t.isPrefixOf (c :: rest) = true
        · have hnopat : ∀ j, j < t.length →
              pat.isPrefixOf ((c :: rest).drop j) = false := by
            intro j hj
            cases hb : pat.isPrefixOf ((c :: rest).drop j) with
            | false => rfl
            | true =>
              exfalso
              rcases Nat.eq_zero_or_pos j with hj0 | hj0
              · subst hj0
                simp only [List.drop_zero] at hb
                exact hm hb
              · have htd : (t.drop j).isPrefixOf ((c :: rest).drop j) = true :=
                  pfx_drop_mono j _ _ ht
                rcases pfx_compare _ _ _ hb htd with h2 | h2
                · simp [(hno2 j (List.mem_range.mpr hj) hj0).1] at h2
                · simp [(hno2 j (List.mem_range.mpr hj) hj0).2] at h2
          have hdecomp := replaceAllFuel_decomp pat rep t (c :: rest) (fuel + 1)
            ht hnopat hlen
          rw [hdecomp]
          have hself : ∀ j, 0 < j → j < t.length →
              t.isPrefixOf ((c :: rest).drop j) = false := by
            intro j hj0 hj
            cases hb : t.isPrefixOf ((c :: rest).drop j) with
            | false => rfl
            | true =>
              exfalso
              have htd : (t.drop j).isPrefixOf ((c :: rest).drop j) = true :=
                pfx_drop_mono j _ _ ht
              rcases pfx_compare _ _ _ hb htd with h2 | h2
              · have := pfx_length_le _ _ h2
                simp [List.length_drop] at this
                omega
              · simp [hno3 j (List.mem_range.mpr hj) hj0] at h2
          have hLHS : countOcc t (c :: rest) ≤
              1 + countOcc t ((c :: rest).drop t.length) := by
            have := countOcc_drop_le t t.length (c :: rest) hself
            rw [ht] at this
            simpa using this
          have hdroplen : ((c :: rest).drop t.length).length ≤ fuel + 1 - t.length := by
            simp [List.length_drop, List.length_cons] at hlen ⊢
            omega
          have hdroplen2 : ((c :: rest).drop t.length).length ≤ fuel := by
            simp [List.length_drop, List.length_cons] at hlen ⊢
            omega
          rw [replaceAllFuel_fuel_irrel pat rep (fuel + 1 - t.length) _ fuel
            hdroplen hdroplen2]
          refine hLHS.trans (le_trans ?_ (countOcc_prepend_self t _ htne))
          exact Nat.add_le_add_left (ih _ hdroplen2) 1
        · have hstep : replaceAllFuel pat rep (fuel + 1) (c :: rest) =
              c :: replaceAllFuel pat rep fuel rest := by
            simp only [replaceAllFuel]
            rw [if_neg (by intro hcon; exact hm hcon.2)]
          rw [hstep]
          have hLHS : countOcc t (c :: rest) = countOcc t rest := by
            show (if t.isPrefixOf (c :: rest) = true then 1 else 0) + countOcc t rest = _
            rw [if_neg ht]
            simp
          rw [hLHS]
          refine (ih rest (by simpa using Nat.le_of_succ_le_succ hlen)).trans ?_
          exact Nat.le_add_left _ _

theorem countOccStr_le_jsReplaceAll (s pat rep t : String) (hpne : pat.data ≠ [])
    (htne : t.data ≠ []) (hno : NoOverlap pat.data t.data) :
    countOccStr t s ≤ countOccStr t (jsReplaceAll s pat rep) := by
  unfold countOccStr jsReplaceAll
  exact countOcc_le_replaceAllFuel rep.data hpne htne hno s.data.length s.data
    (le_refl _)

/-- C9: filling a template with the documented single-brace placeholders
preserves every occurrence of the literal tokens `{{user}}` and `{{char}}`:
the output contains at least as many occurrences of each as the template. -/
theorem fillPromptTemplate_preserves_literals (template : String)
    (values : List (String × String))
    (hkeys : ∀ kv ∈ values, kv.1 ∈ documentedPlaceholderKeys) :
    countOccStr "{{user}}" template ≤
        countOccStr "{{user}}" (fillPromptTemplate template values) ∧
      countOccStr "{{char}}" template ≤
        countOccStr "{{char}}" (fillPromptTemplate template values) := by
  induction values generalizing template with
  | nil => exact ⟨le_refl _, le_refl _⟩
  | cons kv rest ih =>
    have hk : kv.1 ∈ documentedPlaceholderKeys := hkeys kv (by simp)
    have hrest : ∀ kv' ∈ rest, kv'.1 ∈ documentedPlaceholderKeys :=
      fun kv' h => hkeys kv' (by simp [h])
    have hstep : fillPromptTemplate template (kv :: rest) =
        fillPromptTemplate (jsReplaceAll template ("\x7b" ++ kv.1 ++ "\x7d") kv.2) rest := by
      simp [fillPromptTemplate]
    rw [hstep]
    have hone : countOccStr "{{user}}" template ≤
        countOccStr "{{user}}" (jsReplaceAll template ("\x7b" ++ kv.1 ++ "\x7d") kv.2) ∧
        countOccStr "{{char}}" template ≤
        countOccStr "{{char}}" (jsReplaceAll template ("\x7b" ++ kv.1 ++ "\x7d") kv.2) := by
      simp only [documentedPlaceholderKeys, List.mem_cons, List.not_mem_nil,
        or_false] at hk
      rcases hk with h | h | h | h | h | h <;> rw [h] <;>
        exact ⟨countOccStr_le_jsReplaceAll _ _ _ _ (by decide) (by decide) (by decide),
          countOccStr_le_jsReplaceAll _ _ _ _ (by decide) (by decide) (by decide)⟩
    obtain ⟨ih1, ih2⟩ := ih (jsReplaceAll template ("\x7b" ++ kv.1 ++ "\x7d") kv.2) hrest
    exact ⟨hone.1.trans ih1, hone.2.trans ih2⟩

/-- Witness for `fillPromptTemplate_preserves_literals` on a concrete
template and substitution map. -/
theorem fillPromptTemplate_preserves_literals_witness :
    countOccStr "{{user}}" "Hi {companion_name}: {{user}} meets {{char}}." ≤
        countOccStr "{{user}}"
          (fillPromptTemplate "Hi {companion_name}: {{user}} meets {{char}}."
            [("companion_name", "Ava")]) ∧
      countOccStr "{{char}}" "Hi {companion_name}: {{user}} meets {{char}}." ≤
        countOccStr "{{char}}"
          (fillPromptTemplate "Hi {companion_name}: {{user}} meets {{char}}."
            [("companion_name", "Ava")]) :=
  fillPromptTemplate_preserves_literals "Hi {companion_name}: {{user}} meets {{char}}."
    [("companion_name", "Ava")] (by decide)

/-! ## Theorems: resume checkpoint and skip logic -/

theorem mem_foldl_dedup (xs : List String) :
    ∀ (acc : List String) (a : String),
      a ∈ xs.foldl (fun acc k => if k ∈ acc then acc else acc ++ [k]) acc ↔
        a ∈ acc ∨ a ∈ xs := by
  induction xs with
  | nil => intro acc a; simp
  | cons x rest ih =>
    intro acc a
    rw [List.foldl_cons]
    by_cases hx : x ∈ acc
    · rw [if_pos hx, ih]
      constructor
      · rintro (h | h)
        · exact Or.inl h
        · exact Or.inr (by simp [h])
      · rintro (h | h)
        · exact Or.inl h
        · rcases List.mem_cons.mp h with h2 | h2
          · exact Or.inl (h2 ▸ hx)
          · exact Or.inr h2
    · rw [if_neg hx, ih]
      constructor
      · rintro (h | h)
        · rcases List.mem_append.mp h with h2 | h2
          · exact Or.inl h2
          · exact Or.inr (by simpa using Or.inl (by simpa using h2))
        · exact Or.inr (by simp [h])
      · rintro (h | h)
        · exact Or.inl (List.mem_append.mpr (Or.inl h))
        · rcases List.mem_cons.mp h with h2 | h2
          · exact Or.inl (List.mem_append.mpr (Or.inr (by simp [h2])))
          · exact Or.inr h2

theorem mem_jsSetDedup {a : String} {xs : List String} :
    a ∈ jsSetDedup xs ↔ a ∈ xs := by
  unfold jsSetDedup
  rw [mem_foldl_dedup]
  simp

/-- C3 (amended): a selected memory conversation is skipped (receives no
memory-extraction LLM call) iff its source file is recorded in the loaded
checkpoint's `processedMemoryFiles` OR appears with at least one sanitised
candidate in `memoryCandidatesBySourceFile` — the union, not the
intersection, of the two records. -/
theorem memoryChunksPending_skip_iff (cp : GenerationResumeCheckpoint)
    (chunks : List ConversationChunk) (chunk : ConversationChunk)
    (hmem : chunk ∈ chunks) :
    chunk ∉ memoryChunksPending cp chunks ↔
      chunk.sourceFile ∈ cp.processedMemoryFiles ∨
        chunk.sourceFile ∈ (memoryCandidatesMapOf cp).map Prod.fst := by
  have hvalid : chunk.sourceFile ∈ validMemorySourceFiles chunks := by
    unfold validMemorySourceFiles
    exact List.mem_map_of_mem _ hmem
  unfold memoryChunksPending
  constructor
  · intro hnp
    have hin : chunk.sourceFile ∈ processedMemoryFileSetOf cp chunks := by
      by_contra hpred
      exact hnp (List.mem_filter.mpr ⟨hmem, by simpa using hpred⟩)
    unfold processedMemoryFileSetOf at hin
    rw [mem_jsSetDedup] at hin
    rcases List.mem_append.mp hin with h | h
    · exact Or.inl (List.mem_filter.mp h).1
    · exact Or.inr (by simpa using (List.mem_filter.mp h).1)
  · intro hor hin
    have hpred := (List.mem_filter.mp hin).2
    have hset : chunk.sourceFile ∈ processedMemoryFileSetOf cp chunks := by
      unfold processedMemoryFileSetOf
      rw [mem_jsSetDedup]
      rcases hor with h | h
      · exact List.mem_append.mpr (Or.inl (List.mem_filter.mpr
          ⟨h, by simpa using hvalid⟩))
      · exact List.mem_append.mpr (Or.inr (List.mem_filter.mpr
          ⟨h, by simpa using hvalid⟩))
    simp [hset] at hpred

/-- Witness for `memoryChunksPending_skip_iff` at a concrete checkpoint. -/
theorem memoryChunksPending_skip_iff_witness :
    chunkForFileF ∉ memoryChunksPending cpWithCandidatesOnly [chunkForFileF] ↔
      chunkForFileF.sourceFile ∈ cpWithCandidatesOnly.processedMemoryFiles ∨
        chunkForFileF.sourceFile ∈ (memoryCandidatesMapOf cpWithCandidatesOnly).map Prod.fst :=
  memoryChunksPending_skip_iff cpWithCandidatesOnly [chunkForFileF] chunkForFileF
    (by decide)

/-- C3 (counterexample): a source file recorded only in
`memoryCandidatesBySourceFile` (not in `processedMemoryFiles`) is still
skipped, although the claim requires both records to agree. -/
theorem memoryChunksPending_and_cex :
    memoryChunksPending cpWithCandidatesOnly [chunkForFileF] = [] ∧
      chunkForFileF.sourceFile ∉ cpWithCandidatesOnly.processedMemoryFiles := by
  decide

/-- C1 (amended): a checkpoint value whose stored signature differs from the
current run's signature yields the empty checkpoint, provided it carries no
legacy data (no persona observation entries, no memory-candidate entries, no
processed files); an empty checkpoint makes every selected persona and
memory chunk pending, so the resumed run calls the LLM for every selected
packet.  When legacy data is present, the mismatched checkpoint's contents
are retained (legacy migration) — see the counterexample. -/
theorem normalizeResumeCheckpoint_mismatch (value : JsValue) (sig now : String)
    (hmis : checkpointStoredSignature value ≠ sig)
    (hleg : checkpointHasLegacyData value = false) :
    normalizeResumeCheckpoint value sig now = emptyResumeCheckpoint sig now ∧
      (∀ chunks, personaChunksPending (emptyResumeCheckpoint sig now) chunks false =
        chunks) ∧
      (∀ chunks, memoryChunksPending (emptyResumeCheckpoint sig now) chunks = chunks) := by
  refine ⟨?_, ?_, ?_⟩
  · unfold normalizeResumeCheckpoint
    unfold checkpointStoredSignature at hmis
    unfold checkpointHasLegacyData at hleg
    cases h : asRecord value with
    | none => simp [h]
    | some root =>
      rw [h] at hmis hleg
      simp only [h]
      rw [if_pos ⟨hmis, hleg⟩]
  · intro chunks
    unfold personaChunksPending personaObservationMapOf emptyResumeCheckpoint
    simp
  · intro chunks
    unfold memoryChunksPending processedMemoryFileSetOf memoryCandidatesMapOf
      emptyResumeCheckpoint
    simp [jsSetDedup]

/-- Witness for `normalizeResumeCheckpoint_mismatch` at a concrete stored
checkpoint with a stale signature and no data. -/
theorem normalizeResumeCheckpoint_mismatch_witness :
    normalizeResumeCheckpoint (jsObj [("signature", JsValue.str "old")]) "new" "T" =
      emptyResumeCheckpoint "new" "T" :=
  (normalizeResumeCheckpoint_mismatch (jsObj [("signature", JsValue.str "old")])
    "new" "T" (by decide) (by decide)).1

/-- C1 (counterexample): a stored checkpoint whose signature does not match
but which contains persona data is NOT reset to the empty checkpoint — the
legacy-migration branch keeps its observations under the new signature. -/
theorem normalizeResumeCheckpoint_legacy_cex :
    checkpointStoredSignature legacyCheckpointJson = "old" ∧
      ("old" : String) ≠ "new" ∧
      (normalizeResumeCheckpoint legacyCheckpointJson "new" "T").personaObservationsByConversation =
        [("c1", [])] ∧
      normalizeResumeCheckpoint legacyCheckpointJson "new" "T" ≠
        emptyResumeCheckpoint "new" "T" := by
  decide

/-! ## Theorems: packet budgets -/

theorem packetGo_used_le (M mc : Nat) (hM : 1 ≤ M) :
    ∀ (msgs : List RoleMsg) (lines : List String) (cc used : Nat), used ≤ M →
      (packetGo M mc msgs lines cc used).2.2 ≤ M := by
  intro msgs
  induction msgs with
  | nil => intro lines cc used h; simpa [packetGo] using h
  | cons m rest ih =>
    intro lines cc used h
    rw [packetGo]
    by_cases h1 : M > 0 ∧ used ≥ M
    · rw [if_pos h1]
      exact h
    · rw [if_neg h1]
      have hused : used < M := by
        rcases Nat.lt_or_ge used M with h2 | h2
        · exact h2
        · exact absurd ⟨by omega, h2⟩ h1
      by_cases h2 : (newlineSafeText m.content).length = 0
      · rw [if_pos h2]
        exact ih lines cc used h
      · rw [if_neg h2]
        by_cases h3 : mc > 0 ∧
            cc + ("[" ++ m.role ++ "] " ++ newlineSafeText m.content).length > mc
        · rw [if_pos h3]
          exact h
        · rw [if_neg h3]
          exact ih _ _ (used + 1) (by omega)

theorem perConversationCharBudget_eq {C T : Nat} (N : Nat) (hC : 1 ≤ C)
    (hT : 1 ≤ T) :
    perConversationCharBudget C T N = min C (max 1 (T / max 1 N)) := by
  unfold perConversationCharBudget perConversationCapFromTotal
  rw [if_pos (by omega : T > 0), if_pos (by omega : C > 0)]
  have h1 : max 1 T = T := by omega
  rw [h1]
  generalize T / max 1 N = d
  omega

theorem chunkOfFile_spec {M budget : Nat} (hM : 1 ≤ M) {file : ScoredFile}
    {chunk : ConversationChunk}
    (h : chunkOfFile M budget file = some chunk) :
    chunk.charCount ≤ budget ∧ chunk.messagesUsed ≤ M ∧
      chunk.messagesUsed ≠ 0 ∧ jsTrim chunk.transcript ≠ "" := by
  unfold chunkOfFile at h
  by_cases h1 : (buildConversationPacket file.filePath file.messages M budget).messagesUsed ≤ 0 ∨
      jsTrim (buildConversationPacket file.filePath file.messages M budget).transcript = ""
  · rw [if_pos h1] at h
    simp at h
  · rw [if_neg h1] at h
    push_neg at h1
    by_cases h2 : min (buildConversationPacket file.filePath file.messages M budget).charCount
        (min (jsSliceTo (buildConversationPacket file.filePath file.messages M budget).transcript budget).length budget) ≤ 0 ∨
      jsTrim (jsSliceTo (buildConversationPacket file.filePath file.messages M budget).transcript budget) = ""
    · rw [if_pos h2] at h
      simp at h
    · rw [if_neg h2] at h
      push_neg at h2
      obtain rfl := Option.some_inj.mp h
      refine ⟨?_, ?_, ?_, ?_⟩
      · exact (min_le_right _ _).trans (min_le_right _ _)
      · exact packetGo_used_le M budget hM file.messages [] 0 0 (Nat.zero_le M)
      · simpa using Nat.pos_iff_ne_zero.mp h1.1
      · simpa using h2.2

theorem mem_foldl_chunks {files : List ScoredFile} {step : ScoredFile → Option ConversationChunk}
    {chunk : ConversationChunk} :
    ∀ acc : List ConversationChunk,
      chunk ∈ files.foldl (fun out file =>
        match step file with
        | none => out
        | some c => out ++ [c]) acc →
      chunk ∈ acc ∨ ∃ f ∈ files, step f = some chunk := by
  induction files with
  | nil => intro acc h; exact Or.inl (by simpa using h)
  | cons f rest ih =>
    intro acc h
    rw [List.foldl_cons] at h
    rcases hs : step f with _ | c
    · rw [hs] at h
      rcases ih acc h with h2 | ⟨g, hg, hgs⟩
      · exact Or.inl h2
      · exact Or.inr ⟨g, by simp [hg], hgs⟩
    · rw [hs] at h
      rcases ih (acc ++ [c]) h with h2 | ⟨g, hg, hgs⟩
      · rcases List.mem_append.mp h2 with h3 | h3
        · exact Or.inl h3
        · have : chunk = c := by simpa using h3
          exact Or.inr ⟨f, by simp, by rw [hs, this]⟩
      · exact Or.inr ⟨g, by simp [hg], hgs⟩

/-- C5: with positive budgets, every chunk emitted by `buildChunksFromFiles`
respects the effective per-conversation char budget
`min(C, max(1, floor(T / max(1, N))))`, uses at most `M` messages, and is
never empty (at least one message and a transcript that is not
whitespace-only). -/
theorem buildChunksFromFiles_budgets (files : List ScoredFile) (M C T : Nat)
    (hM : 1 ≤ M) (hC : 1 ≤ C) (hT : 1 ≤ T) :
    ∀ chunk ∈ buildChunksFromFiles files M C T,
      chunk.charCount ≤ min C (max 1 (T / max 1 files.length)) ∧
        chunk.messagesUsed ≤ M ∧ chunk.messagesUsed ≠ 0 ∧
        jsTrim chunk.transcript ≠ "" := by
  intro chunk hmem
  unfold buildChunksFromFiles at hmem
  rcases mem_foldl_chunks [] hmem with h | ⟨f, _, hf⟩
  · simp at h
  · have := chunkOfFile_spec hM hf
    rw [perConversationCharBudget_eq files.length hC hT] at this
    exact this

/-- Witness for `buildChunksFromFiles_budgets` at a concrete input. -/
theorem buildChunksFromFiles_budgets_witness :
    ({ conversationId := "conv1.jsonl", sourceFile := "conv1.jsonl"
       sourcePath := "conv1.jsonl", transcript := "[user] hi"
       messagesUsed := 1, charCount := 9,
       tokenEstimate := 3 } : ConversationChunk).charCount ≤
        min 10 (max 1 (100 / max 1 [scoredFileEx].length)) ∧
      (1 : Nat) ≤ 2 ∧ (1 : Nat) ≠ 0 ∧ jsTrim "[user] hi" ≠ "" := by
  have h := buildChunksFromFiles_budgets [scoredFileEx] 2 10 100
    (by omega) (by omega) (by omega)
    { conversationId := "conv1.jsonl", sourceFile := "conv1.jsonl"
      sourcePath := "conv1.jsonl", transcript := "[user] hi"
      messagesUsed := 1, charCount := 9, tokenEstimate := 3 }
    (by decide)
  exact h

/-! ## Theorems: retry and backoff -/

theorem retrySpec_terminal {V : Type} {fetch : Nat → Except JsError V}
    {sig : Nat → Bool} {u : Nat → ℚ} {maxAttempts attempt : Nat} {e : JsError}
    (hf : fetch attempt = Except.error e)
    (hnc : ¬ codeRetries e (sig attempt) attempt maxAttempts) :
    RetrySpec fetch sig u maxAttempts attempt (Except.error e, []) := by
  refine ⟨by simp, by simp, ?_, ?_, ?_⟩
  · intro k hk1 hk2
    simp only [List.length_nil, Nat.add_zero] at hk2
    exact absurd hk2 (Nat.not_lt.mpr hk1)
  · intro e0 he0
    have he : e0 = e := by
      simpa [eq_comm] using he0
    subst he
    simpa using ⟨hf, hnc⟩
  · intro v hv
    simp at hv

theorem retrySpec_ok {V : Type} {fetch : Nat → Except JsError V}
    {sig : Nat → Bool} {u : Nat → ℚ} {maxAttempts attempt : Nat} {v : V}
    (hf : fetch attempt = Except.ok v) :
    RetrySpec fetch sig u maxAttempts attempt (Except.ok v, []) := by
  refine ⟨by simp, by simp, ?_, ?_, ?_⟩
  · intro k hk1 hk2
    simp only [List.length_nil, Nat.add_zero] at hk2
    exact absurd hk2 (Nat.not_lt.mpr hk1)
  · intro e0 he0
    simp at he0
  · intro v0 hv0
    have hv : v0 = v := by
      simpa [eq_comm] using hv0
    subst hv
    simpa using hf

theorem retrySpec_cons {V : Type} {fetch : Nat → Except JsError V}
    {sig : Nat → Bool} {u : Nat → ℚ} {maxAttempts attempt : Nat} {e : JsError}
    {rest : Except JsError V × List ℚ}
    (hf : fetch attempt = Except.error e)
    (hc : codeRetries e (sig attempt) attempt maxAttempts)
    (hrest : RetrySpec fetch sig u maxAttempts (attempt + 1) rest) :
    RetrySpec fetch sig u maxAttempts attempt
      (rest.1, min 45 ((2 : ℚ) ^ (attempt - 1) + u attempt) :: rest.2) := by
  obtain ⟨hA, hB, hC, hD, hE⟩ := hrest
  have hlt : attempt < maxAttempts := hc.2.2.2.1
  have hshift : attempt + (rest.2.length + 1) = attempt + 1 + rest.2.length := by
    omega
  refine ⟨?_, ?_, ?_, ?_, ?_⟩
  · simp only [List.length_cons]
    omega
  · intro i hi
    cases i with
    | zero => simp
    | succ j =>
      simp only [List.length_cons] at hi
      have hj := hB j (by omega)
      simp only [List.get_cons_succ]
      rw [hj]
      have e1 : attempt + 1 + j - 1 = attempt + (j + 1) - 1 := by omega
      have e2 : attempt + 1 + j = attempt + (j + 1) := by omega
      rw [e1, e2]
  · intro k hk1 hk2
    simp only [List.length_cons] at hk2
    rcases Nat.eq_or_lt_of_le hk1 with heq | hlt2
    · subst heq
      exact ⟨e, hf, hc⟩
    · exact hC k hlt2 (by omega)
  · intro e0 he0
    have := hD e0 he0
    simp only [List.length_cons]
    rw [hshift]
    exact this
  · intro v hv
    have := hE v hv
    simp only [List.length_cons]
    rw [hshift]
    exact this

theorem fetchJsonWithRetryGo_spec {V : Type} (fetch : Nat → Except JsError V)
    (sig : Nat → Bool) (u : Nat → ℚ) (maxAttempts : Nat) :
    ∀ (fuel attempt : Nat), maxAttempts + 1 ≤ fuel + attempt →
      RetrySpec fetch sig u maxAttempts attempt
        (fetchJsonWithRetryGo fetch sig u maxAttempts fuel attempt) := by
  intro fuel
  induction fuel with
  | zero =>
    intro attempt hpre
    rcases hf : fetch attempt with e | v
    · have hstep : fetchJsonWithRetryGo fetch sig u maxAttempts 0 attempt =
          (Except.error e, []) := by
        simp [fetchJsonWithRetryGo, hf]
      rw [hstep]
      refine retrySpec_terminal hf ?_
      rintro ⟨_, _, _, hlt, _⟩
      omega
    · have hstep : fetchJsonWithRetryGo fetch sig u maxAttempts 0 attempt =
          (Except.ok v, []) := by
        simp [fetchJsonWithRetryGo, hf]
      rw [hstep]
      exact retrySpec_ok hf
  | succ fuel ih =>
    intro attempt hpre
    rcases hf : fetch attempt with e | v
    · by_cases hc : codeRetries e (sig attempt) attempt maxAttempts
      · obtain ⟨h1, h2, h3, h4, h5⟩ := hc
        have hstep : fetchJsonWithRetryGo fetch sig u maxAttempts (fuel + 1) attempt =
            ((fetchJsonWithRetryGo fetch sig u maxAttempts fuel (attempt + 1)).1,
              min 45 ((2 : ℚ) ^ (attempt - 1) + u attempt) ::
                (fetchJsonWithRetryGo fetch sig u maxAttempts fuel (attempt + 1)).2) := by
          simp only [fetchJsonWithRetryGo, hf]
          rw [if_neg (by simp [h1, h2]), if_neg (by simp [h3]),
            if_neg (by simp [h5]; omega)]
        rw [hstep]
        exact retrySpec_cons hf ⟨h1, h2, h3, h4, h5⟩ (ih (attempt + 1) (by omega))
      · have hstep : fetchJsonWithRetryGo fetch sig u maxAttempts (fuel + 1) attempt =
            (Except.error e, []) := by
          simp only [fetchJsonWithRetryGo, hf]
          by_cases g1 : sig attempt = true ∨ e.name = "AbortError"
          · rw [if_pos (by simpa using g1)]
          · rw [if_neg (by simpa using g1)]
            by_cases g2 : e.name = "TimeoutError"
            · rw [if_pos (by simpa using g2)]
            · rw [if_neg (by simpa using g2)]
              push_neg at g1
              have g3 : maxAttempts ≤ attempt ∨ isRetryableError e.message = false := by
                by_contra hg
                push_neg at hg
                exact hc ⟨by simpa using g1.1, g1.2, g2, by omega,
                  by simpa using hg.2⟩
              rw [if_pos (by simpa using g3)]
        rw [hstep]
        exact retrySpec_terminal hf hc
    · have hstep : fetchJsonWithRetryGo fetch sig u maxAttempts (fuel + 1) attempt =
          (Except.ok v, []) := by
        simp [fetchJsonWithRetryGo, hf]
      rw [hstep]
      exact retrySpec_ok hf

/-- C4 (amended): over the modelled retry loop with the default budget of 6
attempts: at most 6 attempts happen; the backoff slept before attempt `k+1`
is exactly `min(45, 2^(k-1) + u_k)` seconds and never exceeds 45; every
retry was justified by the source's rule (not aborted, error name neither
`AbortError` nor `TimeoutError`, attempt below 6, and the lowercased error
text containing one of the fourteen `RETRY_MARKERS`); and the loop's final
outcome is the outcome of the last attempt, with a failing last attempt
never satisfying that retry rule. -/
theorem fetchJsonWithRetry_spec {V : Type} (fetch : Nat → Except JsError V)
    (sig : Nat → Bool) (u : Nat → ℚ) :
    RetrySpec fetch sig u 6 1 (fetchJsonWithRetry fetch sig u 6) ∧
      (fetchJsonWithRetry fetch sig u 6).2.length + 1 ≤ 6 ∧
      (∀ q ∈ (fetchJsonWithRetry fetch sig u 6).2, q ≤ 45) := by
  have h := fetchJsonWithRetryGo_spec fetch sig u 6 (6 + 1) 1 (by omega)
  refine ⟨h, ?_, ?_⟩
  · show (fetchJsonWithRetryGo fetch sig u 6 (6 + 1) 1).2.length + 1 ≤ 6
    have hA := h.1
    omega
  · intro q hq
    obtain ⟨⟨i, hi⟩, rfl⟩ := List.mem_iff_get.mp hq
    have := h.2.1 i hi
    show (fetchJsonWithRetryGo fetch sig u 6 (6 + 1) 1).2.get ⟨i, hi⟩ ≤ 45
    rw [this]
    exact min_le_left _ _

/-- Witness for `fetchJsonWithRetry_spec`: the always-failing
"try again later" run makes its second attempt only after a justified
retry of the first. -/
theorem fetchJsonWithRetry_spec_witness :
    ∃ e, tryLaterFetch 1 = Except.error e ∧ codeRetries e (noAbort 1) 1 6 :=
  (fetchJsonWithRetry_spec tryLaterFetch noAbort zeroJitter).1.2.2.1 1 (by omega)
    (by decide)

/-- C4 (counterexample): an error reading "Please try again later" matches
none of the claim's retryable classes (429, 5xx, rate limit, overloaded,
timeout, connection reset), so per the claim it would be raised immediately;
the source nevertheless classifies it retryable (marker `"try again later"`)
and retries it five times. -/
theorem fetchJsonWithRetry_class_cex :
    claimRetryClassMatches (jsToLower tryLaterError.message) = false ∧
      isRetryableError tryLaterError.message = true ∧
      (fetchJsonWithRetry tryLaterFetch noAbort zeroJitter 6).2.length = 5 := by
  decide

/-- C6 (counterexample): a merged entry can keep two keys that differ only by
case (the key union deduplicates by exact string equality); an empty
`sourceConversation` on the kept entry is not filled from the duplicate; and
the content comparison is against the doubly-sanitised stored content, not
the sanitised one: for stored content `"a\r\r\nb"` (sanitised `"a\r\nb"`,
length 4) and duplicate content `"a  b"` (sanitised length also 4), the code
replaces the content although the two sanitised contents have equal length,
because the stored content re-sanitises to `"a\nb"` of length 3. -/
theorem compactMemories_merge_pair_case_cex :
    (compactMemories [memExE, memExF] =
        [{ name := "e", keys := ["Foo", "foo"], content := "x"
           category := "shared_memory", priority := 2
           sourceConversation := "", sourceDate := "" }] ∧
      jsToLower "Foo" = jsToLower "foo" ∧ ("Foo" : String) ≠ "foo" ∧
      memExF.sourceConversation = "conv1") ∧
    (compactMemories
        [mkCandidate "g" ["k"] "a\r\r\nb" 1 "", mkCandidate "h" ["k"] "a  b" 1 ""] =
        [{ name := "g", keys := ["k"], content := "a  b"
           category := "shared_memory", priority := 1
           sourceConversation := "", sourceDate := "" }] ∧
      (safeString "a\r\r\nb" "").length = (safeString "a  b" "").length) := by
  decide

/-! ## Theorems: the JSON array streamer (claim C2) -/

theorem digit_char_cases (c : Char) (h : isDigitChar c = true) :
    c = '0' ∨ c = '1' ∨ c = '2' ∨ c = '3' ∨ c = '4' ∨
    c = '5' ∨ c = '6' ∨ c = '7' ∨ c = '8' ∨ c = '9' := by
  simp only [isDigitChar, Bool.and_eq_true, decide_eq_true_eq] at h
  obtain ⟨h1, h2⟩ := h
  have hv1 : 48 ≤ c.toNat := h1
  have hv2 : c.toNat ≤ 57 := h2
  have hofn : Char.ofNat c.toNat = c := Char.ofNat_toNat c
  interval_cases hn : c.toNat <;> simp [← hofn, hn, Char.ofNat]

theorem isDigitChar_digitChar (k : Nat) (h : k < 10) :
    isDigitChar (digitChar k) = true := by
  interval_cases k <;> decide

theorem digitVal_digitChar (k : Nat) (h : k < 10) :
    digitVal (digitChar k) = k := by
  interval_cases k <;> decide

theorem natDigitsGo_digits : ∀ fuel n c, c ∈ natDigitsGo fuel n → isDigitChar c = true := by
  intro fuel
  induction fuel with
  | zero => intro n c hc; simp [natDigitsGo] at hc
  | succ f ih =>
    intro n c hc
    rw [natDigitsGo] at hc
    by_cases hn : n < 10
    · rw [if_pos hn] at hc
      simp at hc
      rw [hc]; exact isDigitChar_digitChar n hn
    · rw [if_neg hn] at hc
      rcases List.mem_append.mp hc with h1 | h2
      · exact ih _ _ h1
      · simp at h2
        rw [h2]; exact isDigitChar_digitChar _ (Nat.mod_lt n (by omega))

theorem natDigits_digits (n : Nat) (c : Char) (hc : c ∈ natDigits n) :
    isDigitChar c = true :=
  natDigitsGo_digits _ _ _ hc

theorem digitsToNat_append_one (xs : List Char) (c : Char) :
    digitsToNat (xs ++ [c]) = digitsToNat xs * 10 + digitVal c := by
  simp [digitsToNat, List.foldl_append]

theorem digitsToNat_natDigitsGo : ∀ fuel n, n < fuel → digitsToNat (natDigitsGo fuel n) = n := by
  intro fuel
  induction fuel with
  | zero => intro n h; omega
  | succ f ih =>
    intro n h
    rw [natDigitsGo]
    by_cases hn : n < 10
    · rw [if_pos hn]
      simp [digitsToNat, digitVal_digitChar n hn]
    · rw [if_neg hn]
      rw [digitsToNat_append_one, ih (n / 10) (by omega),
        digitVal_digitChar _ (Nat.mod_lt n (by omega))]
      omega

theorem digitsToNat_natDigits (n : Nat) : digitsToNat (natDigits n) = n :=
  digitsToNat_natDigitsGo _ _ (Nat.lt_succ_self n)

theorem natDigits_ne_nil (n : Nat) : natDigits n ≠ [] := by
  rw [natDigits, natDigitsGo]
  by_cases hn : n < 10
  · rw [if_pos hn]; simp
  · rw [if_neg hn]; simp

theorem takeWhile_all_of (p : Char → Bool) :
    ∀ xs rest, (∀ c ∈ xs, p c = true) →
      (∀ r rs, rest = r :: rs → p r = false) →
      (xs ++ rest).takeWhile p = xs := by
  intro xs
  induction xs with
  | nil =>
    intro rest _ hrest
    cases rest with
    | nil => rfl
    | cons r rs => simp [List.takeWhile, hrest r rs rfl]
  | cons x xs ih =>
    intro rest hall hrest
    have hx : p x = true := hall x (by simp)
    simp only [List.cons_append, List.takeWhile, hx, List.append_eq]
    rw [ih rest (fun c hc => hall c (by simp [hc])) hrest]

theorem dropWhile_all_of (p : Char → Bool) :
    ∀ xs rest, (∀ c ∈ xs, p c = true) →
      (∀ r rs, rest = r :: rs → p r = false) →
      (xs ++ rest).dropWhile p = rest := by
  intro xs
  induction xs with
  | nil =>
    intro rest _ hrest
    cases rest with
    | nil => rfl
    | cons r rs => simp [List.dropWhile, hrest r rs rfl]
  | cons x xs ih =>
    intro rest hall hrest
    have hx : p x = true := hall x (by simp)
    simp only [List.cons_append, List.dropWhile, hx, List.append_eq]
    exact ih rest (fun c hc => hall c (by simp [hc])) hrest

theorem parseStrBody_escStr : ∀ s rest, parseStrBody (escStr s ++ '"' :: rest) = some (s, rest) := by
  intro s
  induction s with
  | nil => intro rest; rfl
  | cons c cs ih =>
    intro rest
    by_cases hc : c = '"' ∨ c = '\\'
    · rw [escStr, if_pos hc]
      rcases hc with hc | hc <;> rw [hc] <;> simp [parseStrBody, ih]
    · rw [escStr, if_neg hc]
      push_neg at hc
      rw [parseStrBody.eq_def]
      split
      · rename_i heq; simp at heq
      · rename_i c2 r2 heq
        simp only [List.cons_append, List.cons.injEq] at heq
        exact absurd heq.1 hc.2
      · rename_i heq
        simp only [List.cons_append, List.cons.injEq] at heq
        exact absurd heq.1 hc.1
      · rename_i c2 r2 _ _ heq
        simp only [List.cons_append, List.cons.injEq] at heq
        rw [← heq.2, ih, ← heq.1]
        rfl


theorem one_le_sizeVal : ∀ v : JVal, 1 ≤ sizeVal v := by
  intro v; cases v <;> simp [sizeVal]

theorem parseVal_digit_head (fuel : Nat) (c : Char) (ds rest : List Char)
    (hc : isDigitChar c = true) (hds : ∀ d ∈ ds, isDigitChar d = true)
    (hrest : headNotDigit rest = true) :
    parseVal (fuel + 1) (c :: (ds ++ rest)) =
      some (JVal.jnum ((digitsToNat (c :: ds) : Nat) : Int), rest) := by
  have hr : ∀ r rs, rest = r :: rs → isDigitChar r = false := by
    intro r rs h; rw [h] at hrest; simpa [headNotDigit] using hrest
  have hall : ∀ x ∈ c :: ds, isDigitChar x = true := by
    intro x hx
    rcases List.mem_cons.mp hx with h | h
    · rw [h]; exact hc
    · exact hds x h
  have htake : (c :: ds ++ rest).takeWhile isDigitChar = c :: ds :=
    takeWhile_all_of isDigitChar (c :: ds) rest hall hr
  have hdrop : (c :: ds ++ rest).dropWhile isDigitChar = rest :=
    dropWhile_all_of isDigitChar (c :: ds) rest hall hr
  rcases digit_char_cases c hc with h|h|h|h|h|h|h|h|h|h <;> subst h <;>
    simp only [List.cons_append] at htake hdrop ⊢ <;>
    simp [parseVal, htake, hdrop, hc]

theorem renderVal_head_ok : ∀ v : JVal, ∃ c cs, renderVal v = c :: cs ∧
    c ≠ ']' ∧ c ≠ '}' ∧ c ≠ ',' ∧ c ≠ ':' := by
  intro v
  cases v with
  | jnull => exact ⟨'n', _, rfl, by decide, by decide, by decide, by decide⟩
  | jbool b =>
    cases b with
    | false => exact ⟨'f', _, rfl, by decide, by decide, by decide, by decide⟩
    | true => exact ⟨'t', _, rfl, by decide, by decide, by decide, by decide⟩
  | jnum n =>
    by_cases hn : n < 0
    · refine ⟨'-', natDigits n.natAbs, ?_, by decide, by decide, by decide, by decide⟩
      simp [renderVal, renderInt, hn]
    · obtain ⟨c, ds, hcd⟩ := List.exists_cons_of_ne_nil (natDigits_ne_nil n.natAbs)
      have hdc : isDigitChar c = true := by
        apply natDigits_digits n.natAbs
        rw [hcd]; exact List.mem_cons_self _ _
      have h1 : 48 ≤ c.toNat := by
        simp only [isDigitChar, Bool.and_eq_true, decide_eq_true_eq] at hdc
        exact hdc.1
      have h2 : c.toNat ≤ 57 := by
        simp only [isDigitChar, Bool.and_eq_true, decide_eq_true_eq] at hdc
        exact hdc.2
      refine ⟨c, ds, ?_, ?_, ?_, ?_, ?_⟩
      · simp [renderVal, renderInt, hn, hcd]
      · intro h; rw [h] at h2; exact absurd h2 (by decide)
      · intro h; rw [h] at h2; exact absurd h2 (by decide)
      · intro h; rw [h] at h1; exact absurd h1 (by decide)
      · intro h; rw [h] at h2; exact absurd h2 (by decide)
  | jstr s =>
    exact ⟨'"', escStr s ++ ['"'], by simp [renderVal, renderStr], by decide, by decide,
      by decide, by decide⟩
  | jarr it => exact ⟨'[', _, rfl, by decide, by decide, by decide, by decide⟩
  | jobj f => exact ⟨'{', _, rfl, by decide, by decide, by decide, by decide⟩


mutual
theorem sizeVal_le_renderLength : ∀ v : JVal, sizeVal v ≤ (renderVal v).length
  | JVal.jnull => by simp [sizeVal, renderVal]
  | JVal.jbool b => by cases b <;> simp [sizeVal, renderVal]
  | JVal.jnum n => by
    have h1 : 1 ≤ (natDigits n.natAbs).length :=
      List.length_pos.mpr (natDigits_ne_nil n.natAbs)
    by_cases hn : n < 0 <;> simp [sizeVal, renderVal, renderInt, hn] <;> omega
  | JVal.jstr s => by simp [sizeVal, renderVal, renderStr]
  | JVal.jarr it => by
    have h := sizeItems_le_renderLength it
    simp [sizeVal, renderVal]
    omega
  | JVal.jobj f => by
    have h := sizeFields_le_renderLength f
    simp [sizeVal, renderVal]
    omega
theorem sizeItems_le_renderLength : ∀ it : JItems, sizeItems it ≤ (renderItems it).length + 1
  | JItems.inil => by simp [sizeItems, renderItems]
  | JItems.icons v JItems.inil => by
    have h := sizeVal_le_renderLength v
    simp [sizeItems, renderItems]
    omega
  | JItems.icons v (JItems.icons w rest) => by
    have h1 := sizeVal_le_renderLength v
    have h2 := sizeItems_le_renderLength (JItems.icons w rest)
    simp [sizeItems, renderItems]
    simp [sizeItems] at h2
    omega
theorem sizeFields_le_renderLength : ∀ f : JFields, sizeFields f ≤ (renderFields f).length + 1
  | JFields.fnil => by simp [sizeFields, renderFields]
  | JFields.fcons k v JFields.fnil => by
    have h := sizeVal_le_renderLength v
    simp [sizeFields, renderFields, renderStr]
    omega
  | JFields.fcons k v (JFields.fcons k2 v2 rest) => by
    have h1 := sizeVal_le_renderLength v
    have h2 := sizeFields_le_renderLength (JFields.fcons k2 v2 rest)
    simp [sizeFields, renderFields, renderStr]
    simp [sizeFields] at h2
    omega
end


theorem parseVal_bracket (fuel : Nat) (c0 : Char) (t : List Char) (h : c0 ≠ ']') :
    parseVal (fuel + 1) ('[' :: c0 :: t) =
      (parseItemsGo fuel (c0 :: t)).map (fun p => (JVal.jarr p.1, p.2)) := by
  rw [parseVal.eq_def]
  split
  · omega
  · split <;>
      first
        | (simp_all only [List.cons.injEq, Nat.succ.injEq, true_and]; subst_vars; rfl)
        | (rename_i heq2; simp only [List.cons.injEq] at heq2
           exact absurd heq2.1.symm (by assumption))
        | simp_all


theorem parse_render_rt : ∀ fuel : Nat,
    (∀ (v : JVal) (rest : List Char), sizeVal v ≤ fuel → headNotDigit rest = true →
      parseVal fuel (renderVal v ++ rest) = some (v, rest)) ∧
    (∀ (v : JVal) (it : JItems) (rest : List Char), 1 + sizeVal v + sizeItems it ≤ fuel →
      parseItemsGo fuel (renderItems (JItems.icons v it) ++ ']' :: rest) =
        some (JItems.icons v it, rest)) ∧
    (∀ (k : List Char) (v : JVal) (f : JFields) (rest : List Char),
      1 + sizeVal v + sizeFields f ≤ fuel →
      parseFieldsGo fuel (renderFields (JFields.fcons k v f) ++ '}' :: rest) =
        some (JFields.fcons k v f, rest)) := by
  intro fuel
  induction fuel with
  | zero =>
    refine ⟨?_, ?_, ?_⟩
    · intro v rest hs _; have := one_le_sizeVal v; omega
    · intro v it rest hs; omega
    · intro k v f rest hs; omega
  | succ fuel ih =>
    obtain ⟨ihV, ihI, ihF⟩ := ih
    refine ⟨?_, ?_, ?_⟩
    · intro v rest hs hr
      have hrr : ∀ r rs, rest = r :: rs → isDigitChar r = false := by
        intro r rs hh; rw [hh] at hr; simpa [headNotDigit] using hr
      cases v with
      | jnull => rfl
      | jbool b => cases b <;> rfl
      | jnum n =>
        obtain ⟨c, ds, hcd⟩ := List.exists_cons_of_ne_nil (natDigits_ne_nil n.natAbs)
        have hdigits : ∀ d ∈ c :: ds, isDigitChar d = true := by
          intro d hd; apply natDigits_digits n.natAbs; rw [hcd]; exact hd
        have hc : isDigitChar c = true := hdigits c (List.mem_cons_self _ _)
        have hds : ∀ d ∈ ds, isDigitChar d = true :=
          fun d hd => hdigits d (List.mem_cons_of_mem _ hd)
        have hd2n : digitsToNat (c :: ds) = n.natAbs := by
          rw [← hcd]; exact digitsToNat_natDigits _
        by_cases hn : n < 0
        · have htake := takeWhile_all_of isDigitChar (c :: ds) rest hdigits hrr
          have hdrop := dropWhile_all_of isDigitChar (c :: ds) rest hdigits hrr
          rw [show renderVal (JVal.jnum n) = '-' :: natDigits n.natAbs by
            simp [renderVal, renderInt, hn], hcd]
          have hneg : -((digitsToNat (c :: ds) : Nat) : Int) = n := by
            rw [hd2n]; omega
          simp only [List.cons_append] at htake hdrop ⊢
          simp [parseVal, hc, htake, hdrop, hneg]
        · rw [show renderVal (JVal.jnum n) = natDigits n.natAbs by
            simp [renderVal, renderInt, hn], hcd, List.cons_append]
          rw [parseVal_digit_head fuel c ds rest hc hds hr]
          have : ((digitsToNat (c :: ds) : Nat) : Int) = n := by rw [hd2n]; omega
          rw [this]
      | jstr s =>
        rw [show renderVal (JVal.jstr s) ++ rest = '"' :: (escStr s ++ '"' :: rest) by
          simp [renderVal, renderStr]]
        simp [parseVal, parseStrBody_escStr]
      | jarr it =>
        cases it with
        | inil => rfl
        | icons v it2 =>
          obtain ⟨c0, cs0, hshape, hne1, _, _, _⟩ := renderVal_head_ok v
          have hri : ∃ t, renderItems (JItems.icons v it2) = c0 :: t := by
            cases it2 <;> simp [renderItems, hshape]
          obtain ⟨t, ht⟩ := hri
          rw [show renderVal (JVal.jarr (JItems.icons v it2)) ++ rest
              = '[' :: (renderItems (JItems.icons v it2) ++ ']' :: rest) by
            simp [renderVal]]
          rw [ht, List.cons_append, parseVal_bracket fuel c0 (t ++ ']' :: rest) hne1]
          rw [← List.cons_append, ← ht]
          rw [ihI v it2 rest (by simp [sizeVal, sizeItems] at hs; omega)]
          rfl
      | jobj f =>
        cases f with
        | fnil => rfl
        | fcons k v f2 =>
          have hshape : ∃ t, renderFields (JFields.fcons k v f2) = '"' :: t := by
            cases f2 with
            | fnil =>
              exact ⟨escStr k ++ '"' :: ':' :: renderVal v, by simp [renderFields, renderStr]⟩
            | fcons k2 v2 f3 =>
              exact ⟨escStr k ++ '"' :: ':' ::
                  (renderVal v ++ ',' :: renderFields (JFields.fcons k2 v2 f3)),
                by simp [renderFields, renderStr]⟩
          obtain ⟨t, ht⟩ := hshape
          rw [show renderVal (JVal.jobj (JFields.fcons k v f2)) ++ rest =
            '{' :: (renderFields (JFields.fcons k v f2) ++ '}' :: rest) by simp [renderVal]]
          rw [ht, List.cons_append]
          show (parseFieldsGo fuel ('"' :: (t ++ '}' :: rest))).map
              (fun p => (JVal.jobj p.1, p.2)) = _
          rw [← List.cons_append, ← ht]
          rw [ihF k v f2 rest (by simp [sizeVal, sizeFields] at hs; omega)]
          rfl
    · intro v it rest hs
      cases it with
      | inil =>
        rw [show renderItems (JItems.icons v JItems.inil) = renderVal v from rfl]
        show (parseVal fuel (renderVal v ++ ']' :: rest)).bind _ = _
        rw [ihV v (']' :: rest) (by simp [sizeItems] at hs; omega) (by rfl)]
        rfl
      | icons w it2 =>
        rw [show renderItems (JItems.icons v (JItems.icons w it2)) ++ ']' :: rest
            = renderVal v ++ (',' :: (renderItems (JItems.icons w it2) ++ ']' :: rest)) by
          simp [renderItems]]
        show (parseVal fuel _).bind _ = _
        rw [ihV v _ (by have := one_le_sizeVal w; simp [sizeItems] at hs; omega) (by rfl)]
        show (parseItemsGo fuel (renderItems (JItems.icons w it2) ++ ']' :: rest)).map _ = _
        rw [ihI w it2 rest (by have := one_le_sizeVal v; simp [sizeItems] at hs; omega)]
        rfl
    · intro k v f rest hs
      cases f with
      | fnil =>
        rw [show renderFields (JFields.fcons k v JFields.fnil) ++ '}' :: rest
            = '"' :: (escStr k ++ '"' :: (':' :: (renderVal v ++ '}' :: rest))) by
          simp [renderFields, renderStr]]
        show (parseStrBody (escStr k ++ '"' :: (':' :: (renderVal v ++ '}' :: rest)))).bind _ = _
        rw [parseStrBody_escStr]
        show (parseVal fuel (renderVal v ++ '}' :: rest)).bind _ = _
        rw [ihV v ('}' :: rest) (by simp [sizeFields] at hs; omega) (by rfl)]
        rfl
      | fcons k2 v2 f2 =>
        rw [show renderFields (JFields.fcons k v (JFields.fcons k2 v2 f2)) ++ '}' :: rest
            = '"' :: (escStr k ++ '"' :: (':' :: (renderVal v ++
                (',' :: (renderFields (JFields.fcons k2 v2 f2) ++ '}' :: rest))))) by
          simp [renderFields, renderStr]]
        show (parseStrBody _).bind _ = _
        rw [parseStrBody_escStr]
        show (parseVal fuel _).bind _ = _
        rw [ihV v _ (by have := one_le_sizeVal v2; simp [sizeFields] at hs; omega) (by rfl)]
        show (parseFieldsGo fuel (renderFields (JFields.fcons k2 v2 f2) ++ '}' :: rest)).map _ = _
        rw [ihF k2 v2 f2 rest (by have := one_le_sizeVal v; simp [sizeFields] at hs; omega)]
        rfl


theorem runM_cons_none {st st2 : MState} {c : Char} {cs : List Char}
    (h : mstep st c = Except.ok (st2, none)) :
    runM st (c :: cs) = runM st2 cs := by
  rw [runM, h]

theorem runM_cons_some {st st2 : MState} {c : Char} {v : JVal} {cs : List Char}
    (h : mstep st c = Except.ok (st2, some v)) :
    runM st (c :: cs) =
      match runM st2 cs with
      | Except.error e => Except.error e
      | Except.ok (st3, vs) => Except.ok (st3, v :: vs) := by
  rw [runM, h]

theorem mstep_esc (p : List Char) (d : Int) (c : Char) :
    mstep (mkCap p d true true) c = Except.ok (mkCap (p ++ [c]) d true false, none) := by
  simp [mstep, mkCap]

theorem mstep_backslash (p : List Char) (d : Int) :
    mstep (mkCap p d true false) '\\' =
      Except.ok (mkCap (p ++ ['\\']) d true true, none) := by
  simp [mstep, mkCap]

theorem mstep_quote_close (p : List Char) (d : Int) :
    mstep (mkCap p d true false) '"' =
      Except.ok (mkCap (p ++ ['"']) d false false, none) := by
  simp [mstep, mkCap]

theorem mstep_instring_plain (p : List Char) (d : Int) (c : Char)
    (h1 : c ≠ '\\') (h2 : c ≠ '"') :
    mstep (mkCap p d true false) c = Except.ok (mkCap (p ++ [c]) d true false, none) := by
  simp [mstep, mkCap, h1, h2]

theorem mstep_quote_open (p : List Char) (d : Int) :
    mstep (mkCap p d false false) '"' =
      Except.ok (mkCap (p ++ ['"']) d true false, none) := by
  simp [mstep, mkCap]

theorem mstep_cap_plain (p : List Char) (d : Int) (c : Char)
    (hc : plainCapChar c = true) (hd : d ≠ 0) :
    mstep (mkCap p d false false) c = Except.ok (mkCap (p ++ [c]) d false false, none) := by
  simp only [plainCapChar, Bool.not_eq_true', Bool.or_eq_false_iff, decide_eq_false_iff_not] at hc
  obtain ⟨⟨⟨⟨h1, h2⟩, h3⟩, h4⟩, h5⟩ := hc
  simp [mstep, mkCap, h1, h2, h3, h4, h5, hd]

theorem mstep_cap_open (p : List Char) (d : Int) (c : Char)
    (hc : c = '{' ∨ c = '[') (hd : d + 1 ≠ 0) :
    mstep (mkCap p d false false) c =
      Except.ok (mkCap (p ++ [c]) (d + 1) false false, none) := by
  have hne1 : c ≠ '"' := by rcases hc with h | h <;> rw [h] <;> decide
  simp [mstep, mkCap, hne1, hc, hd]

theorem mstep_cap_close (p : List Char) (d : Int) (c : Char)
    (hc : c = '}' ∨ c = ']') (hd : d - 1 ≠ 0) :
    mstep (mkCap p d false false) c =
      Except.ok (mkCap (p ++ [c]) (d - 1) false false, none) := by
  have hne1 : c ≠ '"' := by rcases hc with h | h <;> rw [h] <;> decide
  have hne2 : ¬(c = '{' ∨ c = '[') := by rcases hc with h | h <;> rw [h] <;> decide
  simp [mstep, mkCap, hne1, hne2, hc, hd]

theorem mstep_yield (p : List Char) (f : JFields)
    (hp : parseJson (p ++ ['}']) = some (JVal.jobj f)) :
    mstep (mkCap p 1 false false) '}' =
      Except.ok (mBetween, some (JVal.jobj f)) := by
  simp [mstep, mkCap, hp, JVal.isObj, mBetween]

theorem mstep_between_sep (c : Char) (hc : sepChar c = true) :
    mstep mBetween c = Except.ok (mBetween, none) := by
  have h5 : c = ' ' ∨ c = '\n' ∨ c = '\x0d' ∨ c = '\t' ∨ c = ',' := by
    simp only [sepChar, jsonWsChar, Bool.or_eq_true, decide_eq_true_eq] at hc
    tauto
  rcases h5 with h|h|h|h|h <;> rw [h] <;> rfl

theorem mstep_between_open (c : Char) (hc : c = '{' ∨ c = '[') :
    mstep mBetween c = Except.ok (mkCap [c] 1 false false, none) := by
  rcases hc with h | h <;> rw [h] <;> rfl

theorem mstep_between_close :
    mstep mBetween ']' = Except.ok (mFin, none) := by
  rfl

theorem mstep_init_ws (c : Char) (hc : jsonWsChar c = true) :
    mstep minit c = Except.ok (minit, none) := by
  have h4 : c = ' ' ∨ c = '\n' ∨ c = '\x0d' ∨ c = '\t' := by
    simp only [jsonWsChar, Bool.or_eq_true, decide_eq_true_eq] at hc
    tauto
  rcases h4 with h|h|h|h <;> rw [h] <;> rfl

theorem mstep_init_open :
    mstep minit '[' = Except.ok (mBetween, none) := by
  rfl

theorem mstep_fin_ws (c : Char) (hc : jsonWsChar c = true) :
    mstep mFin c = Except.ok (mFin, none) := by
  have h4 : c = ' ' ∨ c = '\n' ∨ c = '\x0d' ∨ c = '\t' := by
    simp only [jsonWsChar, Bool.or_eq_true, decide_eq_true_eq] at hc
    tauto
  rcases h4 with h|h|h|h <;> rw [h] <;> rfl


theorem plainCapChar_of_digit (c : Char) (h : isDigitChar c = true) :
    plainCapChar c = true := by
  rcases digit_char_cases c h with h|h|h|h|h|h|h|h|h|h <;> rw [h] <;> decide

theorem runM_capture_escStr : ∀ (s p : List Char) (d : Int) (rest : List Char),
    runM (mkCap p d true false) (escStr s ++ '"' :: rest) =
      runM (mkCap ((p ++ escStr s) ++ ['"']) d false false) rest := by
  intro s
  induction s with
  | nil =>
    intro p d rest
    rw [show escStr [] = [] from rfl, List.nil_append,
      runM_cons_none (mstep_quote_close p d), List.append_nil]
  | cons c cs ih =>
    intro p d rest
    by_cases hc : c = '"' ∨ c = '\\'
    · rw [show escStr (c :: cs) = '\\' :: c :: escStr cs by simp [escStr, hc]]
      rw [List.cons_append, List.cons_append,
        runM_cons_none (mstep_backslash p d),
        runM_cons_none (mstep_esc (p ++ ['\\']) d c), ih]
      have heq : ((p ++ ['\\']) ++ [c]) ++ escStr cs = p ++ '\\' :: c :: escStr cs := by
        simp
      rw [heq]
    · rw [show escStr (c :: cs) = c :: escStr cs by simp [escStr, hc]]
      push_neg at hc
      rw [List.cons_append,
        runM_cons_none (mstep_instring_plain p d c hc.2 hc.1), ih]
      have heq : (p ++ [c]) ++ escStr cs = p ++ c :: escStr cs := by
        simp
      rw [heq]

theorem runM_capture_plain : ∀ (cs p : List Char) (d : Int) (rest : List Char),
    (∀ c ∈ cs, plainCapChar c = true) → d ≠ 0 →
    runM (mkCap p d false false) (cs ++ rest) =
      runM (mkCap (p ++ cs) d false false) rest := by
  intro cs
  induction cs with
  | nil => intro p d rest _ _; rw [List.nil_append, List.append_nil]
  | cons c cs ih =>
    intro p d rest hall hd
    rw [List.cons_append,
      runM_cons_none (mstep_cap_plain p d c (hall c (by simp)) hd),
      ih (p ++ [c]) d rest (fun x hx => hall x (by simp [hx])) hd]
    have heq : (p ++ [c] ++ cs) = p ++ c :: cs := by simp
    rw [heq]

theorem runM_capture_renderStr (s p : List Char) (d : Int) (rest : List Char) :
    runM (mkCap p d false false) (renderStr s ++ rest) =
      runM (mkCap (p ++ renderStr s) d false false) rest := by
  rw [show renderStr s ++ rest = '"' :: (escStr s ++ '"' :: rest) by simp [renderStr]]
  rw [runM_cons_none (mstep_quote_open p d), runM_capture_escStr]
  have heq : ((p ++ ['"'] ++ escStr s) ++ ['"']) = p ++ renderStr s := by
    simp [renderStr]
  rw [heq]

theorem renderInt_plain (n : Int) : ∀ c ∈ renderInt n, plainCapChar c = true := by
  intro c hc
  rw [renderInt] at hc
  by_cases hn : n < 0
  · rw [if_pos hn] at hc
    rcases List.mem_cons.mp hc with h | h
    · rw [h]; decide
    · exact plainCapChar_of_digit c (natDigits_digits _ _ h)
  · rw [if_neg hn] at hc
    exact plainCapChar_of_digit c (natDigits_digits _ _ hc)


theorem runM_capture : ∀ n : Nat,
    (∀ (v : JVal), sizeVal v ≤ n → ∀ (p : List Char) (d : Int) (rest : List Char), 1 ≤ d →
      runM (mkCap p d false false) (renderVal v ++ rest) =
        runM (mkCap (p ++ renderVal v) d false false) rest) ∧
    (∀ (it : JItems), sizeItems it ≤ n → ∀ (p : List Char) (d : Int) (rest : List Char), 1 ≤ d →
      runM (mkCap p d false false) (renderItems it ++ rest) =
        runM (mkCap (p ++ renderItems it) d false false) rest) ∧
    (∀ (f : JFields), sizeFields f ≤ n → ∀ (p : List Char) (d : Int) (rest : List Char), 1 ≤ d →
      runM (mkCap p d false false) (renderFields f ++ rest) =
        runM (mkCap (p ++ renderFields f) d false false) rest) := by
  intro n
  induction n with
  | zero =>
    refine ⟨?_, ?_, ?_⟩
    · intro v hs; have := one_le_sizeVal v; omega
    · intro it hs p d rest hd
      cases it with
      | inil => rw [show renderItems JItems.inil = [] from rfl, List.nil_append, List.append_nil]
      | icons v it2 => rw [sizeItems] at hs; omega
    · intro f hs p d rest hd
      cases f with
      | fnil => rw [show renderFields JFields.fnil = [] from rfl, List.nil_append, List.append_nil]
      | fcons k v f2 => rw [sizeFields] at hs; omega
  | succ n ih =>
    obtain ⟨ihV, ihI, ihF⟩ := ih
    have hdne : ∀ d : Int, 1 ≤ d → d ≠ 0 := fun d hd => by omega
    refine ⟨?_, ?_, ?_⟩
    · intro v hs p d rest hd
      cases v with
      | jnull =>
        exact runM_capture_plain _ p d rest (by decide) (hdne d hd)
      | jbool b =>
        cases b <;> exact runM_capture_plain _ p d rest (by decide) (hdne d hd)
      | jnum m =>
        exact runM_capture_plain _ p d rest (renderInt_plain m) (hdne d hd)
      | jstr s =>
        exact runM_capture_renderStr s p d rest
      | jarr it =>
        rw [show renderVal (JVal.jarr it) ++ rest
            = '[' :: (renderItems it ++ (']' :: rest)) by simp [renderVal]]
        rw [runM_cons_none (mstep_cap_open p d '[' (Or.inr rfl) (by omega))]
        rw [ihI it (by simp [sizeVal] at hs; omega) (p ++ ['[']) (d + 1) (']' :: rest) (by omega)]
        rw [runM_cons_none (mstep_cap_close _ (d + 1) ']' (Or.inr rfl) (by omega))]
        have heq1 : d + 1 - 1 = d := by omega
        have heq2 : (((p ++ ['[']) ++ renderItems it) ++ [']'])
            = p ++ renderVal (JVal.jarr it) := by
          simp [renderVal]
        rw [heq1, heq2]
      | jobj f =>
        rw [show renderVal (JVal.jobj f) ++ rest
            = '{' :: (renderFields f ++ ('}' :: rest)) by simp [renderVal]]
        rw [runM_cons_none (mstep_cap_open p d '{' (Or.inl rfl) (by omega))]
        rw [ihF f (by simp [sizeVal] at hs; omega) (p ++ ['{']) (d + 1) ('}' :: rest) (by omega)]
        rw [runM_cons_none (mstep_cap_close _ (d + 1) '}' (Or.inl rfl) (by omega))]
        have heq1 : d + 1 - 1 = d := by omega
        have heq2 : (((p ++ ['{']) ++ renderFields f) ++ ['}'])
            = p ++ renderVal (JVal.jobj f) := by
          simp [renderVal]
        rw [heq1, heq2]
    · intro it hs p d rest hd
      cases it with
      | inil => rw [show renderItems JItems.inil = [] from rfl, List.nil_append, List.append_nil]
      | icons v it2 =>
        cases it2 with
        | inil =>
          rw [show renderItems (JItems.icons v JItems.inil) = renderVal v from rfl]
          exact ihV v (by simp [sizeItems] at hs; omega) p d rest hd
        | icons w it3 =>
          rw [show renderItems (JItems.icons v (JItems.icons w it3)) ++ rest
              = renderVal v ++ (',' :: (renderItems (JItems.icons w it3) ++ rest)) by
            simp [renderItems]]
          rw [ihV v (by have := one_le_sizeVal w; simp [sizeItems] at hs; omega) p d _ hd]
          rw [runM_cons_none (mstep_cap_plain _ d ',' (by decide) (hdne d hd))]
          rw [ihI (JItems.icons w it3)
            (by have := one_le_sizeVal v; simp only [sizeItems] at hs ⊢; omega) _ d rest hd]
          have heq : (((p ++ renderVal v) ++ [',']) ++ renderItems (JItems.icons w it3))
              = p ++ renderItems (JItems.icons v (JItems.icons w it3)) := by
            simp [renderItems]
          rw [heq]
    · intro f hs p d rest hd
      cases f with
      | fnil => rw [show renderFields JFields.fnil = [] from rfl, List.nil_append, List.append_nil]
      | fcons k v f2 =>
        cases f2 with
        | fnil =>
          rw [show renderFields (JFields.fcons k v JFields.fnil) ++ rest
              = renderStr k ++ (':' :: (renderVal v ++ rest)) by simp [renderFields]]
          rw [runM_capture_renderStr k p d _]
          rw [runM_cons_none (mstep_cap_plain _ d ':' (by decide) (hdne d hd))]
          rw [ihV v (by simp [sizeFields] at hs; omega) _ d rest hd]
          have heq : (((p ++ renderStr k) ++ [':']) ++ renderVal v)
              = p ++ renderFields (JFields.fcons k v JFields.fnil) := by
            simp [renderFields]
          rw [heq]
        | fcons k2 v2 f3 =>
          rw [show renderFields (JFields.fcons k v (JFields.fcons k2 v2 f3)) ++ rest
              = renderStr k ++ (':' :: (renderVal v ++
                  (',' :: (renderFields (JFields.fcons k2 v2 f3) ++ rest)))) by
            simp [renderFields]]
          rw [runM_capture_renderStr k p d _]
          rw [runM_cons_none (mstep_cap_plain _ d ':' (by decide) (hdne d hd))]
          rw [ihV v (by have := one_le_sizeVal v2; simp [sizeFields] at hs; omega) _ d _ hd]
          rw [runM_cons_none (mstep_cap_plain _ d ',' (by decide) (hdne d hd))]
          rw [ihF (JFields.fcons k2 v2 f3)
            (by have := one_le_sizeVal v; simp only [sizeFields] at hs ⊢; omega) _ d rest hd]
          have heq : (((((p ++ renderStr k) ++ [':']) ++ renderVal v) ++ [','])
                ++ renderFields (JFields.fcons k2 v2 f3))
              = p ++ renderFields (JFields.fcons k v (JFields.fcons k2 v2 f3)) := by
            simp [renderFields]
          rw [heq]


theorem parseJson_renderVal (v : JVal) : parseJson (renderVal v) = some v := by
  have h := (parse_render_rt ((renderVal v).length + 1)).1 v []
    (le_trans (sizeVal_le_renderLength v) (Nat.le_succ _)) (by rfl)
  rw [List.append_nil] at h
  rw [parseJson, h]

theorem runM_between_obj (f : JFields) (rest : List Char) :
    runM mBetween (renderVal (JVal.jobj f) ++ rest) =
      match runM mBetween rest with
      | Except.error e => Except.error e
      | Except.ok (m, vs) => Except.ok (m, JVal.jobj f :: vs) := by
  rw [show renderVal (JVal.jobj f) ++ rest
      = '{' :: (renderFields f ++ ('}' :: rest)) by simp [renderVal]]
  rw [runM_cons_none (mstep_between_open '{' (Or.inl rfl))]
  rw [(runM_capture (sizeFields f)).2.2 f le_rfl ['{'] 1 _ le_rfl]
  have hp : parseJson ((['{'] ++ renderFields f) ++ ['}']) = some (JVal.jobj f) := by
    rw [show (['{'] ++ renderFields f) ++ ['}'] = renderVal (JVal.jobj f) by simp [renderVal]]
    exact parseJson_renderVal _
  rw [runM_cons_some (mstep_yield _ f hp)]

theorem runM_ws_init : ∀ (lead cs : List Char), (∀ c ∈ lead, jsonWsChar c = true) →
    runM minit (lead ++ cs) = runM minit cs := by
  intro lead
  induction lead with
  | nil => intro cs _; rw [List.nil_append]
  | cons c l ih =>
    intro cs hws
    rw [List.cons_append, runM_cons_none (mstep_init_ws c (hws c (by simp)))]
    exact ih cs (fun x hx => hws x (by simp [hx]))

theorem runM_sep_between : ∀ (seps cs : List Char), (∀ c ∈ seps, sepChar c = true) →
    runM mBetween (seps ++ cs) = runM mBetween cs := by
  intro seps
  induction seps with
  | nil => intro cs _; rw [List.nil_append]
  | cons c l ih =>
    intro cs hws
    rw [List.cons_append, runM_cons_none (mstep_between_sep c (hws c (by simp)))]
    exact ih cs (fun x hx => hws x (by simp [hx]))

theorem runM_ws_fin : ∀ (ws : List Char), (∀ c ∈ ws, jsonWsChar c = true) →
    runM mFin ws = Except.ok (mFin, []) := by
  intro ws
  induction ws with
  | nil => intro _; rfl
  | cons c l ih =>
    intro hws
    rw [runM_cons_none (mstep_fin_ws c (hws c (by simp)))]
    exact ih (fun x hx => hws x (by simp [hx]))

theorem runM_between_seq : ∀ (ps : List (List Char × JVal)) (rest : List Char),
    (∀ p ∈ ps, (∀ c ∈ p.1, sepChar c = true) ∧ p.2.isObj = true) →
    runM mBetween (seqOf ps ++ rest) =
      match runM mBetween rest with
      | Except.error e => Except.error e
      | Except.ok (m, vs) => Except.ok (m, ps.map Prod.snd ++ vs) := by
  intro ps
  induction ps with
  | nil =>
    intro rest _
    rw [show seqOf [] = [] from rfl, List.nil_append]
    cases hx : runM mBetween rest with
    | error e => rfl
    | ok r => cases r; simp
  | cons q ps ih =>
    intro rest hall
    obtain ⟨hsep, hobj⟩ := hall q (by simp)
    obtain ⟨f, hf⟩ : ∃ f, q.2 = JVal.jobj f := by
      cases hq : q.2 <;> rw [hq] at hobj <;> simp [JVal.isObj] at hobj
      exact ⟨_, rfl⟩
    rw [show seqOf (q :: ps) ++ rest = q.1 ++ (renderVal q.2 ++ (seqOf ps ++ rest)) by
      simp [seqOf]]
    rw [runM_sep_between q.1 _ hsep, hf, runM_between_obj]
    rw [ih rest (fun x hx => hall x (by simp [hx]))]
    cases hx : runM mBetween rest with
    | error e => rfl
    | ok r => cases r; simp [hf]

theorem runMFinal_encoding (ps : List (List Char × JVal)) (lead sepLast trail : List Char)
    (hlead : ∀ c ∈ lead, jsonWsChar c = true)
    (hps : ∀ p ∈ ps, (∀ c ∈ p.1, sepChar c = true) ∧ p.2.isObj = true)
    (hsl : ∀ c ∈ sepLast, sepChar c = true)
    (htr : ∀ c ∈ trail, jsonWsChar c = true) :
    runMFinal minit (lead ++ '[' :: (seqOf ps ++ (sepLast ++ ']' :: trail))) =
      Except.ok (ps.map Prod.snd) := by
  rw [runMFinal, runM_ws_init lead _ hlead,
    runM_cons_none mstep_init_open,
    runM_between_seq ps _ hps,
    runM_sep_between sepLast _ hsl,
    runM_cons_none mstep_between_close,
    runM_ws_fin trail htr]
  simp [mFin, mBetween]


theorem take_succ_get (l : List Char) (i : Nat) (h : i < l.length) :
    l.take (i + 1) = l.take i ++ [l.get ⟨i, h⟩] := by
  rw [List.take_succ]
  simp [List.getElem?_eq_getElem h, List.get_eq_getElem]

theorem drop_take_succ (l : List Char) (i ts : Nat) (h : i < l.length) (hts : ts ≤ i) :
    (l.take (i + 1)).drop ts = (l.take i).drop ts ++ [l.get ⟨i, h⟩] := by
  rw [take_succ_get l i h, List.drop_append_of_le_length]
  rw [List.length_take]
  omega


theorem scanIter_bridge (st : ScannerState) (h : st.index < st.buffer.length)
    (hwf : SWF st) :
    (∃ e, scanIter st (st.buffer.get ⟨st.index, h⟩) = Except.error e ∧
          mstep (absState st) (st.buffer.get ⟨st.index, h⟩) = Except.error e) ∨
    (∃ st2 out, scanIter st (st.buffer.get ⟨st.index, h⟩) = Except.ok (st2, out) ∧
          mstep (absState st) (st.buffer.get ⟨st.index, h⟩) = Except.ok (absState st2, out) ∧
          SWF st2 ∧
          st2.buffer.length - st2.index + 1 = st.buffer.length - st.index ∧
          st2.buffer.drop st2.index = st.buffer.drop (st.index + 1)) := by
  obtain ⟨hwf1, hwf2, hwf3, hwf4⟩ := hwf
  set c := st.buffer.get ⟨st.index, h⟩ with hcdef
  have hpend := drop_take_succ st.buffer st.index st.tokenStart h hwf2
  by_cases h1 : st.started = false
  · have hcap : st.capturing = false := by
      cases hc2 : st.capturing
      · rfl
      · exact absurd h1 (by simp [(hwf4 hc2).1])
    by_cases h2 : jsonWsChar c = true
    · refine Or.inr ⟨{ st with index := st.index + 1 }, none, ?_, ?_, ?_, ?_, ?_⟩
      · simp [scanIter, h1, h2]
      · simp [mstep, absState, h1, h2, hcap]
      · exact ⟨by simp; omega, by simp; omega, by simp [hcap] at hwf3 ⊢; exact hwf3,
          by simp [hcap]⟩
      · simp; omega
      · simp
    · by_cases h3 : c = '['
      · refine Or.inr ⟨{ st with started := true, index := st.index + 1 }, none, ?_, ?_, ?_, ?_, ?_⟩
        · simp [scanIter, h1, h2, h3]
          decide
        · simp [mstep, absState, h1, h2, h3, hcap]
          decide
        · exact ⟨by simp; omega, by simp; omega, by simp [hcap] at hwf3 ⊢; exact hwf3,
            by simp [hcap]⟩
        · simp; omega
        · simp
      · refine Or.inl ⟨"Expected opening bracket at top level", ?_, ?_⟩
        · simp [scanIter, h1, h2, h3]
        · simp [mstep, absState, h1, h2, h3]
  · have h1' : st.started = true := by revert h1; cases st.started <;> simp
    by_cases h2 : st.finished = true
    · have hcap : st.capturing = false := by
        cases hc2 : st.capturing
        · rfl
        · exact absurd h2 (by simp [(hwf4 hc2).2])
      by_cases h3 : jsonWsChar c = true
      · refine Or.inr ⟨{ st with index := st.index + 1 }, none, ?_, ?_, ?_, ?_, ?_⟩
        · simp [scanIter, h1, h2, h3]
        · simp [mstep, absState, h1, h2, h3, hcap]
        · exact ⟨by simp; omega, by simp; omega, by simp [hcap] at hwf3 ⊢; exact hwf3,
            by simp [hcap]⟩
        · simp; omega
        · simp
      · refine Or.inl ⟨"Unexpected non-whitespace content after closing JSON array", ?_, ?_⟩
        · simp [scanIter, h1, h2, h3]
        · simp [mstep, absState, h1, h2, h3]
    · by_cases h3 : st.capturing = false
      · by_cases h4 : (jsonWsChar c || c = ',') = true
        · refine Or.inr ⟨{ st with index := st.index + 1 }, none, ?_, ?_, ?_, ?_, ?_⟩
          · simp only [scanIter, h1, h2, h3, h4]
            simp [h1, h2]
          · simp only [mstep, absState, h1, h2, h3, h4]
            simp [h1, h2, h3]
          · exact ⟨by simp; omega, by simp; omega, by simp [h3] at hwf3 ⊢; exact hwf3,
              by simp [h3]⟩
          · simp; omega
          · simp
        · by_cases h5 : c = ']'
          · refine Or.inr ⟨{ st with finished := true, index := st.index + 1 }, none,
              ?_, ?_, ?_, ?_, ?_⟩
            · simp only [scanIter, h1, h2, h3, h4, h5]
              simp [h1, h2]
              decide
            · simp only [mstep, absState, h1, h2, h3, h4, h5]
              simp [h1, h2, h3]
              decide
            · exact ⟨by simp; omega, by simp; omega, by simp [h3] at hwf3 ⊢; exact hwf3,
                by simp [h3]⟩
            · simp; omega
            · simp
          · by_cases h6 : c ≠ '{' ∧ c ≠ '['
            · refine Or.inl ⟨"Expected JSON object item at array level", ?_, ?_⟩
              · simp only [scanIter, h1, h2, h3, h4, h5, h6]
                simp [h1, h2]
                exact h6
              · simp only [mstep, absState, h1, h2, h3, h4, h5, h6]
                simp [h1, h2, h3]
                exact h6
            · refine Or.inr ⟨{ st with
                  capturing := true, tokenStart := st.index, depth := 1,
                  inString := false, escaped := false, index := st.index + 1 }, none,
                ?_, ?_, ?_, ?_, ?_⟩
              · simp only [scanIter, h1, h2, h3, h4, h5, h6]
                simp [h1, h2]
              · have hone := drop_take_succ st.buffer st.index st.index h le_rfl
                have hempty : (st.buffer.take st.index).drop st.index = [] := by
                  apply List.drop_eq_nil_of_le
                  simp
                rw [hempty, List.nil_append] at hone
                simp only [mstep, absState, h1, h2, h3, h4, h5, h6]
                simp [h1, h2, h3, hone]
                rfl
              · refine ⟨?_, ?_, ?_, ?_⟩
                · simp
                  omega
                · simp
                · simp
                · simp [h1', h2]
              · simp; omega
              · simp
      · have h3' : st.capturing = true := by revert h3; cases st.capturing <;> simp
        have hpend2 : (st.buffer.take (st.index + 1)).drop st.tokenStart
            = (st.buffer.take st.index).drop st.tokenStart ++ [c] := hpend
        by_cases h4 : st.inString = true
        · by_cases h5 : st.escaped = true
          · refine Or.inr ⟨{ st with escaped := false, index := st.index + 1 }, none,
              ?_, ?_, ?_, ?_, ?_⟩
            · simp only [scanIter, h1, h2, h3, h4, h5]
              simp [h1, h2, h3']
            · simp only [mstep, absState, h1, h2, h3, h3', h4, h5]
              simp [h1, h2, h3', hpend2]
            · exact ⟨by simp; omega, by simp; omega, by simp [h3'], by simp [h3', h1', h2]⟩
            · simp; omega
            · simp
          · by_cases h6 : c = '\\'
            · refine Or.inr ⟨{ st with escaped := true, index := st.index + 1 }, none,
                ?_, ?_, ?_, ?_, ?_⟩
              · simp only [scanIter, h1, h2, h3, h4, h5, h6]
                simp [h1, h2, h3']
              · simp only [mstep, absState, h1, h2, h3, h3', h4, h5, h6]
                simp [h1, h2, h3', hpend2]
                exact h6.symm
              · exact ⟨by simp; omega, by simp; omega, by simp [h3'], by simp [h3', h1', h2]⟩
              · simp; omega
              · simp
            · by_cases h7 : c = '"'
              · refine Or.inr ⟨{ st with inString := false, index := st.index + 1 }, none,
                  ?_, ?_, ?_, ?_, ?_⟩
                · simp only [scanIter, h1, h2, h3, h4, h5, h6, h7]
                  simp [h1, h2, h3']
                · simp only [mstep, absState, h1, h2, h3, h3', h4, h5, h6, h7]
                  simp [h1, h2, h3', hpend2]
                  exact h7.symm
                · exact ⟨by simp; omega, by simp; omega, by simp [h3'], by simp [h3', h1', h2]⟩
                · simp; omega
                · simp
              · refine Or.inr ⟨{ st with index := st.index + 1 }, none, ?_, ?_, ?_, ?_, ?_⟩
                · simp only [scanIter, h1, h2, h3, h4, h5, h6, h7]
                  simp [h1, h2, h3']
                · simp only [mstep, absState, h1, h2, h3, h3', h4, h5, h6, h7]
                  simp [h1, h2, h3', hpend2]
                · exact ⟨by simp; omega, by simp; omega, by simp [h3'], by simp [h3', h1', h2]⟩
                · simp; omega
                · simp
        · by_cases h5 : c = '"'
          · refine Or.inr ⟨{ st with inString := true, index := st.index + 1 }, none,
              ?_, ?_, ?_, ?_, ?_⟩
            · simp only [scanIter, h1, h2, h3, h4, h5]
              simp [h1, h2, h3']
            · simp only [mstep, absState, h1, h2, h3, h3', h4, h5]
              simp [h1, h2, h3', hpend2]
              exact h5.symm
            · exact ⟨by simp; omega, by simp; omega, by simp [h3'], by simp [h3', h1', h2]⟩
            · simp; omega
            · simp
          · set depth2 : Int := if c = '{' ∨ c = '[' then st.depth + 1
              else if c = '}' ∨ c = ']' then st.depth - 1 else st.depth with hd2
            by_cases h6 : depth2 = 0
            · cases hp : parseJson ((st.buffer.take st.index).drop st.tokenStart ++ [c]) with
              | none =>
                refine Or.inl ⟨"Invalid JSON in array item", ?_, ?_⟩
                · simp only [scanIter, h1, h2, h3, h4, h5]
                  simp only [← hd2]
                  simp [h1, h2, h3', h6, hpend2, hp]
                · simp only [mstep, absState, h1, h2, h3, h3', h4, h5]
                  simp only [← hd2]
                  simp [h1, h2, h3', h6, hp]
              | some v =>
                by_cases hobj : v.isObj = true
                · refine Or.inr ⟨{ st with
                      buffer := st.buffer.drop (st.index + 1), index := 0,
                      capturing := false, tokenStart := 0, depth := depth2 }, some v,
                    ?_, ?_, ?_, ?_, ?_⟩
                  · simp only [scanIter, h1, h2, h3, h4, h5]
                    simp only [← hd2]
                    simp [h1, h2, h3', h6, hpend2, hp, hobj]
                  · simp only [mstep, absState, h1, h2, h3, h3', h4, h5]
                    simp only [← hd2]
                    simp [h1, h2, h3', h6, hp, hobj]
                  · exact ⟨by simp, by simp, by simp, by simp⟩
                  · simp; omega
                  · simp
                · refine Or.inl ⟨"Top-level array item is not an object", ?_, ?_⟩
                  · simp only [scanIter, h1, h2, h3, h4, h5]
                    simp only [← hd2]
                    simp [h1, h2, h3', h6, hpend2, hp, hobj]
                  · simp only [mstep, absState, h1, h2, h3, h3', h4, h5]
                    simp only [← hd2]
                    simp [h1, h2, h3', h6, hp, hobj]
            · refine Or.inr ⟨{ st with depth := depth2, index := st.index + 1 }, none,
                ?_, ?_, ?_, ?_, ?_⟩
              · simp only [scanIter, h1, h2, h3, h4, h5]
                simp only [← hd2]
                simp [h1, h2, h3', h6]
              · simp only [mstep, absState, h1, h2, h3, h3', h4, h5]
                simp only [← hd2]
                simp [h1, h2, h3', h6, hpend2]
              · exact ⟨by simp; omega, by simp; omega, by simp [h3'], by simp [h3', h1', h2]⟩
              · simp; omega
              · simp

theorem runM_cons_error {st : MState} {c : Char} {cs : List Char} {e : String}
    (h : mstep st c = Except.error e) :
    runM st (c :: cs) = Except.error e := by
  rw [runM, h]

theorem runM_append : ∀ (xs : List Char) (st : MState) (ys : List Char),
    runM st (xs ++ ys) =
      match runM st xs with
      | Except.error e => Except.error e
      | Except.ok (m, vs) =>
        match runM m ys with
        | Except.error e => Except.error e
        | Except.ok (m2, ws) => Except.ok (m2, vs ++ ws) := by
  intro xs
  induction xs with
  | nil =>
    intro st ys
    rw [List.nil_append]
    cases hy : runM st ys with
    | error e => simp [runM, hy]
    | ok r => cases r; simp [runM, hy]
  | cons x xs ih =>
    intro st ys
    rw [List.cons_append]
    cases hs : mstep st x with
    | error e =>
      rw [runM_cons_error hs, runM_cons_error hs]
    | ok r =>
      obtain ⟨st2, out⟩ := r
      cases out with
      | none =>
        rw [runM_cons_none hs, runM_cons_none hs, ih st2 ys]
      | some v =>
        rw [runM_cons_some hs, runM_cons_some hs, ih st2 ys]
        cases h2 : runM st2 xs with
        | error e => rfl
        | ok r2 =>
          obtain ⟨m, vs⟩ := r2
          cases h3 : runM m ys with
          | error e => simp [h3]
          | ok r3 => cases r3; simp [h3]

theorem flushLoop_bridge : ∀ (fuel : Nat) (st : ScannerState) (acc : List JVal),
    SWF st → st.buffer.length - st.index < fuel →
    ((∃ e, runM (absState st) (st.buffer.drop st.index) = Except.error e ∧
        flushLoop fuel st acc = Except.error e) ∨
     (∃ st2 m vs, runM (absState st) (st.buffer.drop st.index) = Except.ok (m, vs) ∧
        flushLoop fuel st acc = Except.ok (st2, acc ++ vs) ∧ absState st2 = m ∧ SWF st2 ∧
        st2.index = st2.buffer.length)) := by
  intro fuel
  induction fuel with
  | zero => intro st acc _ hlt; omega
  | succ fuel ih =>
    intro st acc hwf hlt
    by_cases h : st.index < st.buffer.length
    · have hdrop : st.buffer.drop st.index
          = st.buffer.get ⟨st.index, h⟩ :: st.buffer.drop (st.index + 1) :=
        List.drop_eq_getElem_cons h
      rcases scanIter_bridge st h hwf with ⟨e, hscan, hmach⟩ | ⟨st2, out, hscan, hmach, hwf2, hmeas, hdrop2⟩
      · refine Or.inl ⟨e, ?_, ?_⟩
        · rw [hdrop, runM_cons_error hmach]
        · rw [flushLoop, dif_pos h, hscan]
      · cases out with
        | none =>
          have hrec := ih st2 acc hwf2 (by omega)
          rw [hdrop2] at hrec
          rcases hrec with ⟨e, hrun, hloop⟩ | ⟨st3, m, vs, hrun, hloop, habs, hwf3, hend⟩
          · refine Or.inl ⟨e, ?_, ?_⟩
            · rw [hdrop, runM_cons_none hmach, hrun]
            · rw [flushLoop, dif_pos h, hscan]
              exact hloop
          · refine Or.inr ⟨st3, m, vs, ?_, ?_, habs, hwf3, hend⟩
            · rw [hdrop, runM_cons_none hmach, hrun]
            · rw [flushLoop, dif_pos h, hscan]
              exact hloop
        | some v =>
          have hrec := ih st2 (acc ++ [v]) hwf2 (by omega)
          rw [hdrop2] at hrec
          rcases hrec with ⟨e, hrun, hloop⟩ | ⟨st3, m, vs, hrun, hloop, habs, hwf3, hend⟩
          · refine Or.inl ⟨e, ?_, ?_⟩
            · rw [hdrop, runM_cons_some hmach]
              simp [hrun]
            · rw [flushLoop, dif_pos h, hscan]
              exact hloop
          · refine Or.inr ⟨st3, m, v :: vs, ?_, ?_, habs, hwf3, hend⟩
            · rw [hdrop, runM_cons_some hmach]
              simp [hrun]
            · rw [flushLoop, dif_pos h, hscan]
              simp [hloop]
    · have hend : st.index = st.buffer.length := by
        obtain ⟨hwf1, _, _, _⟩ := hwf
        omega
      refine Or.inr ⟨st, absState st, [], ?_, ?_, rfl, hwf, hend⟩
      · rw [show st.buffer.drop st.index = [] from
          List.drop_eq_nil_of_le (by omega), runM]
      · rw [flushLoop, dif_neg h, List.append_nil]


theorem flushTail_bridge (st : ScannerState) (hwf : SWF st) (hend : st.index = st.buffer.length) :
    absState (flushTail st) = absState st ∧ SWF (flushTail st) ∧ SNormal (flushTail st) := by
  obtain ⟨hwf1, hwf2, hwf3, hwf4⟩ := hwf
  rw [flushTail]
  by_cases h1 : st.capturing = true ∧ st.tokenStart > 0
  · rw [if_pos h1]
    have hlen : (st.buffer.drop st.tokenStart).length = st.buffer.length - st.tokenStart :=
      List.length_drop _ _
    refine ⟨?_, ?_, ?_⟩
    · simp only [absState, h1.1]
      simp [h1.1, hend, List.take_length]
    · refine ⟨?_, ?_, ?_, ?_⟩
      · simp [hlen]; omega
      · simp
      · intro _
        rfl
      · intro _
        exact hwf4 h1.1
    · refine ⟨?_, ?_, ?_⟩
      · simp [hlen]; omega
      · rfl
      · intro hc
        exact absurd (hc : st.capturing = false) (by simp [h1.1])
  · rw [if_neg h1]
    by_cases h2 : st.capturing = false ∧ st.index > 0
    · rw [if_pos h2]
      have hbn : st.buffer.drop st.index = [] :=
        List.drop_eq_nil_of_le (by omega)
      refine ⟨?_, ?_, ?_⟩
      · simp [absState, h2.1]
      · refine ⟨?_, ?_, ?_, ?_⟩
        · simp
        · simp [hwf3 h2.1]
        · intro _
          simp only
          exact hwf3 h2.1
        · intro hc
          simp only at hc
          rw [h2.1] at hc
          cases hc
      · refine ⟨?_, ?_, ?_⟩
        · simp [hbn]
        · simp only
          exact hwf3 h2.1
        · intro _
          simp only
          exact hbn
    · rw [if_neg h2]
      refine ⟨rfl, ⟨hwf1, hwf2, hwf3, hwf4⟩, hend, ?_, ?_⟩
      · cases hc : st.capturing
        · exact hwf3 hc
        · push_neg at h1
          have := h1 hc
          omega
      · intro hc
        push_neg at h2
        have hi0 := h2 hc
        have : st.buffer.length = 0 := by omega
        exact List.eq_nil_of_length_eq_zero this

theorem flushParsed_false_bridge (st : ScannerState) (hwf : SWF st) :
    (∃ e, runM (absState st) (st.buffer.drop st.index) = Except.error e ∧
        flushParsed false st = Except.error e) ∨
    (∃ st2 m vs, runM (absState st) (st.buffer.drop st.index) = Except.ok (m, vs) ∧
        flushParsed false st = Except.ok (st2, vs) ∧ absState st2 = m ∧ SWF st2 ∧ SNormal st2) := by
  have hfuel : st.buffer.length - st.index < st.buffer.length + 1 := by omega
  rcases flushLoop_bridge (st.buffer.length + 1) st [] hwf hfuel with
    ⟨e, hrun, hloop⟩ | ⟨st2, m, vs, hrun, hloop, habs, hwf2, hend⟩
  · refine Or.inl ⟨e, hrun, ?_⟩
    rw [flushParsed, hloop]
  · obtain ⟨habs2, hwf3, hn3⟩ := flushTail_bridge st2 hwf2 hend
    refine Or.inr ⟨flushTail st2, m, vs, hrun, ?_, habs2.trans habs, hwf3, hn3⟩
    rw [flushParsed, hloop]
    simp

theorem feedChunk_bridge (st : ScannerState) (chunk : List Char)
    (hwf : SWF st) (hn : SNormal st) :
    (∃ e, runM (absState st) chunk = Except.error e ∧
        feedChunk st chunk = Except.error e) ∨
    (∃ st2 m vs, runM (absState st) chunk = Except.ok (m, vs) ∧
        feedChunk st chunk = Except.ok (st2, vs) ∧ absState st2 = m ∧ SWF st2 ∧ SNormal st2) := by
  obtain ⟨hwf1, hwf2, hwf3, hwf4⟩ := hwf
  obtain ⟨hn1, hn2, hn3⟩ := hn
  set st' : ScannerState := { st with buffer := st.buffer ++ chunk } with hst'
  have hwf' : SWF st' := by
    refine ⟨?_, ?_, ?_, ?_⟩
    · simp [hst']; omega
    · simp [hst', hwf2]
    · simp [hst']; exact hwf3
    · simp [hst']; exact hwf4
  have habs' : absState st' = absState st := by
    simp only [absState, hst']
    cases hc : st.capturing
    · simp
    · simp [hn1, List.take_left, List.take_length]
  have hdrop' : st'.buffer.drop st'.index = chunk := by
    simp only [hst']
    rw [show ({ st with buffer := st.buffer ++ chunk } : ScannerState).index = st.index from rfl,
      hn1, List.drop_left]
  have := flushParsed_false_bridge st' hwf'
  rw [habs', hdrop'] at this
  exact this

theorem flushTail_eq_self_of_normal (st : ScannerState) (hwf : SWF st) (hn : SNormal st) :
    flushTail st = st := by
  obtain ⟨hn1, hn2, hn3⟩ := hn
  rw [flushTail]
  rw [if_neg (by simp [hn2]), if_neg ?_]
  intro ⟨hc, hi⟩
  rw [hn3 hc] at hn1
  simp at hn1
  omega

theorem streamGo_bridge : ∀ (chunks : List (List Char)) (st : ScannerState),
    SWF st → SNormal st →
    streamGo st chunks = runMFinal (absState st) chunks.join := by
  intro chunks
  induction chunks with
  | nil =>
    intro st hwf hn
    have hnoiter : ¬(st.index < st.buffer.length) := by rw [hn.1]; omega
    have hself := flushTail_eq_self_of_normal st hwf hn
    rw [streamGo, flushParsed, flushLoop, dif_neg hnoiter]
    simp only [hself]
    rw [show (List.join ([] : List (List Char))) = [] from rfl, runMFinal, runM]
    by_cases hb1 : st.started = false
    · simp [absState, hb1]
    · by_cases hb2 : st.capturing = true
      · simp [absState, hb1, hb2]
      · by_cases hb3 : st.finished = false
        · simp [absState, hb1, hb2, hb3]
        · simp [absState, hb1, hb2, hb3]
  | cons ch chunks ih =>
    intro st hwf hn
    rw [show (ch :: chunks).join = ch ++ chunks.join from rfl]
    rcases feedChunk_bridge st ch hwf hn with
      ⟨e, hrun, hfeed⟩ | ⟨st2, m, vs, hrun, hfeed, habs, hwf2, hn2⟩
    · rw [streamGo, hfeed]
      rw [runMFinal, runM_append, hrun]
    · rw [streamGo, hfeed]
      simp only [Except.map]
      rw [ih st2 hwf2 hn2, habs]
      conv_rhs => rw [runMFinal, runM_append, hrun]
      rw [runMFinal]
      cases hy : runM m chunks.join with
      | error e => simp [hy]
      | ok r =>
        obtain ⟨m2, ws⟩ := r
        by_cases hb1 : m2.started = false
        · simp [hy, hb1]
        · by_cases hb2 : m2.capturing = true
          · simp [hy, hb1, hb2]
          · by_cases hb3 : m2.finished = false
            · simp [hy, hb1, hb2, hb3]
            · simp [hy, hb1, hb2, hb3]


/-- **C2.** For every byte stream that encodes a JSON array whose top-level
elements are objects (modelled as: the concatenation of the stream's decoded
chunks is whitespace, `[`, the rendered objects each preceded by its own run
of whitespace/comma separators, optional trailing separators, `]`, trailing
whitespace), `streamJsonArrayObjectsFromReadable` yields exactly the array's
objects — equal, as parsed values, to the whole-input parse of each rendered
element — in array order.  The hypotheses constrain only `chunks.join`, so
any two partitions of the same bytes into chunks (including splits inside
strings and escape sequences) yield identical object sequences. -/
theorem streamJsonArrayObjectsFromReadable_yields
    (ps : List (List Char × JVal)) (lead sepLast trail : List Char)
    (chunks : List (List Char))
    (hlead : ∀ c ∈ lead, jsonWsChar c = true)
    (hps : ∀ p ∈ ps, (∀ c ∈ p.1, sepChar c = true) ∧ p.2.isObj = true)
    (hsl : ∀ c ∈ sepLast, sepChar c = true)
    (htr : ∀ c ∈ trail, jsonWsChar c = true)
    (hjoin : chunks.join = lead ++ '[' :: (seqOf ps ++ (sepLast ++ ']' :: trail))) :
    streamJsonArrayObjectsFromReadable chunks = Except.ok (ps.map Prod.snd) := by
  have hswf : SWF sinit := ⟨by simp [sinit], by simp [sinit], fun _ => rfl, by simp [sinit]⟩
  have hnorm : SNormal sinit := ⟨rfl, rfl, fun _ => rfl⟩
  rw [streamJsonArrayObjectsFromReadable, streamGo_bridge chunks sinit hswf hnorm,
    show absState sinit = minit from rfl, hjoin,
    runMFinal_encoding ps lead sepLast trail hlead hps hsl htr]

/-- Witness for C2 at a concrete two-object array split mid-escape across
two chunks. -/
theorem streamJsonArrayObjectsFromReadable_yields_witness :
    (∀ c ∈ [' '], jsonWsChar c = true) ∧
    (∀ p ∈ [(([] : List Char), JVal.jobj (JFields.fcons ['a'] (JVal.jnum 1) JFields.fnil)),
            ([',', ' '], JVal.jobj (JFields.fcons ['b'] (JVal.jstr ['x', '"', ']', 'y'])
              JFields.fnil))],
      (∀ c ∈ p.1, sepChar c = true) ∧ p.2.isObj = true) ∧
    ([[' ', '[', '{', '"', 'a', '"', ':', '1', '}', ',', ' ', '{', '"', 'b', '"', ':', '"',
        'x', '\\'],
      ['"', ']', 'y', '"', '}', ']', ' ']].join
      = [' '] ++ '[' ::
          (seqOf [(([] : List Char), JVal.jobj (JFields.fcons ['a'] (JVal.jnum 1) JFields.fnil)),
                  ([',', ' '], JVal.jobj (JFields.fcons ['b'] (JVal.jstr ['x', '"', ']', 'y'])
                    JFields.fnil))] ++ (([] : List Char) ++ ']' :: [' ']))) ∧
    streamJsonArrayObjectsFromReadable
        [[' ', '[', '{', '"', 'a', '"', ':', '1', '}', ',', ' ', '{', '"', 'b', '"', ':', '"',
            'x', '\\'],
         ['"', ']', 'y', '"', '}', ']', ' ']]
      = Except.ok [JVal.jobj (JFields.fcons ['a'] (JVal.jnum 1) JFields.fnil),
          JVal.jobj (JFields.fcons ['b'] (JVal.jstr ['x', '"', ']', 'y']) JFields.fnil)] := by
  refine ⟨by decide, by decide, by decide, ?_⟩
  exact streamJsonArrayObjectsFromReadable_yields
    [(([] : List Char), JVal.jobj (JFields.fcons ['a'] (JVal.jnum 1) JFields.fnil)),
     ([',', ' '], JVal.jobj (JFields.fcons ['b'] (JVal.jstr ['x', '"', ']', 'y']) JFields.fnil))]
    [' '] [] [' ']
    [[' ', '[', '{', '"', 'a', '"', ':', '1', '}', ',', ' ', '{', '"', 'b', '"', ':', '"',
        'x', '\\'],
     ['"', ']', 'y', '"', '}', ']', ' ']]
    (by decide) (by decide) (by decide) (by decide) (by decide)

end CK
